import Mathlib

/-!
Verification of the Tick-Tock-Toe backend game engine.

The game-state engine (`src/game/state.rs`) and the AI decision engine
(`src/ai.rs`, `src/three_solver.rs`) are embedded shallowly below:

* the board is `Fin 3 → Fin 3 → Option String`, mirroring the Rust
  `[[Option<String>; 3]; 3]` indexed as `board[x][y]`;
* `usize` coordinates are `Nat`; fallible indexing is made explicit by
  letting `place_piece` return `Option` (`none` models an out-of-bounds
  panic, which the Rust code would produce on a bad index);
* `f32` learning parameters are modelled as exact rationals `ℚ`;
* the `HashMap` tables are association lists with first-match lookup
  and replace-on-insert, matching `HashMap` get/insert semantics.
-/

set_option maxHeartbeats 4000000

/-- The 3×3 grid of cells, `board[x][y]` in the Rust source. -/
abbrev Board := Fin 3 → Fin 3 → Option String

/-- A cell coordinate inside the grid. -/
abbrev Cell := Fin 3 × Fin 3

/-- One of the eight fixed winning patterns (a triple of cells),
mirroring the `[(usize, usize); 3]` entries of `win_patterns`. -/
abbrev WinLine := Cell × Cell × Cell

/-- `board[x][y] = v` — update a single cell of the grid. -/
def setCell (b : Board) (x y : Fin 3) (v : Option String) : Board :=
  fun i j => if i = x ∧ j = y then v else b i j

/-- The game state of `src/game/state.rs` (`struct GameState`). -/
structure GameState where
  board : Board
  current_player : String
  moves_x : List (Nat × Nat)
  moves_o : List (Nat × Nat)
  winner : Option String
  winning_line : Option WinLine
  is_ai_game : Bool
  ai_level : Option String

/-- `GameState::new` — empty board, `"X"` to move. -/
def GameState.new (is_ai_game : Bool) (ai_level : Option String) : GameState where
  board := fun _ _ => none
  current_player := "X"
  moves_x := []
  moves_o := []
  winner := none
  winning_line := none
  is_ai_game := is_ai_game
  ai_level := ai_level

/-- The `win_patterns` array of `check_winner`, in source order:
three rows, three columns, two diagonals. -/
def winPatterns : List WinLine :=
  [ ((0, 0), (0, 1), (0, 2)),
    ((1, 0), (1, 1), (1, 2)),
    ((2, 0), (2, 1), (2, 2)),
    ((0, 0), (1, 0), (2, 0)),
    ((0, 1), (1, 1), (2, 1)),
    ((0, 2), (1, 2), (2, 2)),
    ((0, 0), (1, 1), (2, 2)),
    ((0, 2), (1, 1), (2, 0)) ]

/-- The loop body test of `check_winner`: the three cells of the pattern
hold equal, non-empty occupants. -/
def lineWins (b : Board) (p : WinLine) : Bool :=
  (b p.1.1 p.1.2).isSome
    && decide (b p.1.1 p.1.2 = b p.2.1.1 p.2.1.2)
    && decide (b p.1.1 p.1.2 = b p.2.2.1 p.2.2.2)

/-- `GameState::check_winner` — scan the eight patterns in order and
record occupant and pattern of the first complete line; leave the state
untouched when no pattern matches. -/
def GameState.check_winner (s : GameState) : GameState :=
  match winPatterns.find? (lineWins s.board) with
  | some p => { s with winner := s.board p.1.1 p.1.2, winning_line := some p }
  | none => s

/-- The turn flip at the end of `place_piece`: switch `current_player`
between `"X"` and `"O"` unless a winner has been recorded. -/
def flipTurn (t : GameState) : GameState :=
  if t.winner = none then
    { t with current_player := if t.current_player = "X" then "O" else "X" }
  else t

/-- The tail of `place_piece` after the board and history update:
run `check_winner`, then flip `current_player` when there is no winner. -/
def finishPlace (s : GameState) (b : Board) (curX : Bool) (ms : List (Nat × Nat)) : GameState :=
  flipTurn (GameState.check_winner
    { s with
      board := b
      moves_x := if curX then ms else s.moves_x
      moves_o := if curX then s.moves_o else ms })

/-- `GameState::place_piece`. Returns `some (flag, s')` where `flag` is the
Rust return value and `s'` the mutated state; `none` models an
out-of-bounds index panic. -/
def GameState.place_piece (s : GameState) (x y : Nat) : Option (Bool × GameState) :=
  if s.winner.isSome then
    some (false, s)
  else if hx : x < 3 then
    if hy : y < 3 then
      if s.board ⟨x, hx⟩ ⟨y, hy⟩ = none then
        let b1 := setCell s.board ⟨x, hx⟩ ⟨y, hy⟩ (some s.current_player)
        let curX := s.current_player = "X"
        let ms1 := (if curX then s.moves_x else s.moves_o) ++ [(x, y)]
        if 3 < ms1.length then
          match ms1 with
          | [] => none
          | (ox, oy) :: rest =>
            if hox : ox < 3 then
              if hoy : oy < 3 then
                some (true, finishPlace s (setCell b1 ⟨ox, hox⟩ ⟨oy, hoy⟩ none) curX rest)
              else none
            else none
        else
          some (true, finishPlace s b1 curX ms1)
      else
        some (false, s)
    else none
  else none

/-- `GameState::reset` — clear the board, the histories and the outcome;
`is_ai_game` and `ai_level` are untouched. -/
def GameState.reset (s : GameState) : GameState :=
  { s with
    board := fun _ _ => none
    moves_x := []
    moves_o := []
    winner := none
    winning_line := none
    current_player := "X" }

/-- The state after calling `place_piece` (both on success and on
rejection the Rust value lives on; a panic is modelled as no change). -/
def stepP (s : GameState) (x y : Nat) : GameState :=
  ((s.place_piece x y).getD (false, s)).2

/-- States reachable from `GameState::new` by `place_piece` calls with
in-range arguments and by `reset`. -/
inductive Reachable : GameState → Prop
  | base (ai : Bool) (lvl : Option String) : Reachable (GameState.new ai lvl)
  | step (s : GameState) (x y : Nat) : Reachable s → x < 3 → y < 3 →
      Reachable (stepP s x y)
  | rst (s : GameState) : Reachable s → Reachable s.reset

/-- The nine cells in row-major order (`x` outer, `y` inner), the
enumeration order used by `random_ai_move`. -/
def allCells : List Cell :=
  (List.finRange 3).flatMap fun i => (List.finRange 3).map fun j => (i, j)

/-- Modelled from the spec: `GameState::available_moves` is called by
`src/ai.rs` and `src/handlers/game.rs` but its body is not under `src/`;
section 4.1 of the spec defines it as the sequence of empty cells in
row-major scan order, the same enumeration `random_ai_move` uses. -/
def GameState.available_moves (s : GameState) : List (Nat × Nat) :=
  (allCells.filter fun c => (s.board c.1 c.2).isNone).map fun c => (c.1.val, c.2.val)

/-- Modelled from the spec: `GameState::undo_move` is called by
`src/ai.rs` but its body is not under `src/`; section 4.1 of the spec
defines it as clearing the given cell directly, restoring neither
evicted pieces nor history entries nor any other field. -/
def GameState.undo_move (s : GameState) (x y : Nat) : GameState :=
  if hx : x < 3 then
    if hy : y < 3 then
      { s with board := setCell s.board ⟨x, hx⟩ ⟨y, hy⟩ none }
    else s
  else s


theorem setCell_self (b : Board) (x y : Fin 3) (v : Option String) :
    setCell b x y v x y = v := by
  simp [setCell]

theorem setCell_other (b : Board) (x y : Fin 3) (v : Option String) (i j : Fin 3)
    (h : ¬(i = x ∧ j = y)) : setCell b x y v i j = b i j := by
  simp [setCell, h]

theorem check_winner_board (s : GameState) : s.check_winner.board = s.board := by
  unfold GameState.check_winner
  cases winPatterns.find? (lineWins s.board) <;> rfl

theorem check_winner_moves_x (s : GameState) : s.check_winner.moves_x = s.moves_x := by
  unfold GameState.check_winner
  cases winPatterns.find? (lineWins s.board) <;> rfl

theorem check_winner_moves_o (s : GameState) : s.check_winner.moves_o = s.moves_o := by
  unfold GameState.check_winner
  cases winPatterns.find? (lineWins s.board) <;> rfl

theorem check_winner_current (s : GameState) :
    s.check_winner.current_player = s.current_player := by
  unfold GameState.check_winner
  cases winPatterns.find? (lineWins s.board) <;> rfl

theorem flipTurn_board (t : GameState) : (flipTurn t).board = t.board := by
  unfold flipTurn
  split <;> rfl

theorem flipTurn_moves_x (t : GameState) : (flipTurn t).moves_x = t.moves_x := by
  unfold flipTurn
  split <;> rfl

theorem flipTurn_moves_o (t : GameState) : (flipTurn t).moves_o = t.moves_o := by
  unfold flipTurn
  split <;> rfl

theorem flipTurn_current_or (t : GameState) :
    (flipTurn t).current_player = t.current_player ∨
      (flipTurn t).current_player = (if t.current_player = "X" then "O" else "X") := by
  unfold flipTurn
  split
  · right
    rfl
  · left
    rfl

theorem finishPlace_board (s : GameState) (b : Board) (c : Bool) (ms : List (Nat × Nat)) :
    (finishPlace s b c ms).board = b := by
  simp [finishPlace, flipTurn_board, check_winner_board]

theorem finishPlace_moves_x (s : GameState) (b : Board) (c : Bool) (ms : List (Nat × Nat)) :
    (finishPlace s b c ms).moves_x = if c then ms else s.moves_x := by
  simp only [finishPlace, flipTurn_moves_x, check_winner_moves_x]

theorem finishPlace_moves_o (s : GameState) (b : Board) (c : Bool) (ms : List (Nat × Nat)) :
    (finishPlace s b c ms).moves_o = if c then s.moves_o else ms := by
  simp only [finishPlace, flipTurn_moves_o, check_winner_moves_o]

theorem finishPlace_current (s : GameState) (b : Board) (c : Bool) (ms : List (Nat × Nat)) :
    (finishPlace s b c ms).current_player = s.current_player ∨
      (finishPlace s b c ms).current_player =
        (if s.current_player = "X" then "O" else "X") := by
  have h := flipTurn_current_or (GameState.check_winner
    { s with
      board := b
      moves_x := if c then ms else s.moves_x
      moves_o := if c then s.moves_o else ms })
  simpa only [finishPlace, check_winner_current] using h

theorem place_piece_winner (s : GameState) (x y : Nat) (h : s.winner.isSome) :
    s.place_piece x y = some (false, s) := by
  unfold GameState.place_piece
  simp [h]

theorem place_piece_occupied (s : GameState) (x y : Nat) (hx : x < 3) (hy : y < 3)
    (hw : s.winner = none) (hb : s.board ⟨x, hx⟩ ⟨y, hy⟩ ≠ none) :
    s.place_piece x y = some (false, s) := by
  unfold GameState.place_piece
  simp [hw, hx, hy, hb]

theorem place_piece_noevict (s : GameState) (x y : Nat) (hx : x < 3) (hy : y < 3)
    (hw : s.winner = none) (hb : s.board ⟨x, hx⟩ ⟨y, hy⟩ = none)
    (hlen : ¬ 3 < ((if s.current_player = "X" then s.moves_x else s.moves_o) ++ [(x, y)]).length) :
    s.place_piece x y =
      some (true, finishPlace s (setCell s.board ⟨x, hx⟩ ⟨y, hy⟩ (some s.current_player))
        (s.current_player = "X")
        ((if s.current_player = "X" then s.moves_x else s.moves_o) ++ [(x, y)])) := by
  unfold GameState.place_piece
  simp only [hw, Option.isSome_none, Bool.false_eq_true, if_false, hx, dif_pos, hy, hb, if_pos]
  rw [if_neg hlen]

theorem place_piece_evict (s : GameState) (x y ox oy : Nat) (rest : List (Nat × Nat))
    (hx : x < 3) (hy : y < 3) (hox : ox < 3) (hoy : oy < 3)
    (hw : s.winner = none) (hb : s.board ⟨x, hx⟩ ⟨y, hy⟩ = none)
    (hms : (if s.current_player = "X" then s.moves_x else s.moves_o) = (ox, oy) :: rest)
    (hlen : 3 < (((ox, oy) :: rest) ++ [(x, y)]).length) :
    s.place_piece x y =
      some (true, finishPlace s
        (setCell (setCell s.board ⟨x, hx⟩ ⟨y, hy⟩ (some s.current_player)) ⟨ox, hox⟩ ⟨oy, hoy⟩ none)
        (s.current_player = "X")
        (rest ++ [(x, y)])) := by
  unfold GameState.place_piece
  simp only [hw, Option.isSome_none, Bool.false_eq_true, if_false, hx, dif_pos, hy, hb, if_pos, hms]
  rw [if_pos (by simpa using hlen)]
  simp [hox, hoy]

/-! ### The state invariant maintained by all operations -/

/-- The state invariant of the Board Model: the recorded histories are
in range, duplicate-free, of length at most three, and list exactly the
cells each player occupies on the board; the player to move is `"X"` or
`"O"`. -/
structure StateInv (s : GameState) : Prop where
  curOK : s.current_player = "X" ∨ s.current_player = "O"
  lenX : s.moves_x.length ≤ 3
  lenO : s.moves_o.length ≤ 3
  ndX : s.moves_x.Nodup
  ndO : s.moves_o.Nodup
  memX : ∀ i j : Fin 3, (s.board i j = some "X" ↔ (i.val, j.val) ∈ s.moves_x)
  memO : ∀ i j : Fin 3, (s.board i j = some "O" ↔ (i.val, j.val) ∈ s.moves_o)
  rngX : ∀ c ∈ s.moves_x, c.1 < 3 ∧ c.2 < 3
  rngO : ∀ c ∈ s.moves_o, c.1 < 3 ∧ c.2 < 3

theorem inv_new (ai : Bool) (lvl : Option String) : StateInv (GameState.new ai lvl) := by
  constructor <;> simp [GameState.new]

theorem inv_reset (s : GameState) : StateInv s.reset := by
  constructor <;> simp [GameState.reset]

theorem pair_val_eq (i j : Fin 3) (x y : Nat) (hx : x < 3) (hy : y < 3) :
    ((i.val, j.val) = (x, y)) ↔ (i = ⟨x, hx⟩ ∧ j = ⟨y, hy⟩) := by
  simp [Prod.ext_iff, Fin.ext_iff]

theorem fin_mk_val (x : Nat) (hx : x < 3) : ((⟨x, hx⟩ : Fin 3)).val = x := rfl

theorem inv_noevict_x (s : GameState) (x y : Nat) (hx : x < 3) (hy : y < 3)
    (h : StateInv s) (hw : s.winner = none) (hb : s.board ⟨x, hx⟩ ⟨y, hy⟩ = none)
    (hcX : s.current_player = "X")
    (hlen : ¬ 3 < ((if s.current_player = "X" then s.moves_x else s.moves_o) ++ [(x, y)]).length) :
    StateInv (stepP s x y) := by
  have hnm : (x, y) ∉ s.moves_x := by
    intro hm
    have := (h.memX ⟨x, hx⟩ ⟨y, hy⟩).mpr hm
    rw [hb] at this
    exact Option.noConfusion this
  have hnmo : (x, y) ∉ s.moves_o := by
    intro hm
    have := (h.memO ⟨x, hx⟩ ⟨y, hy⟩).mpr hm
    rw [hb] at this
    exact Option.noConfusion this
  have key : stepP s x y = finishPlace s (setCell s.board ⟨x, hx⟩ ⟨y, hy⟩ (some s.current_player))
      (s.current_player = "X") ((if s.current_player = "X" then s.moves_x else s.moves_o) ++ [(x, y)]) := by
    unfold stepP
    rw [place_piece_noevict s x y hx hy hw hb hlen]
    rfl
  rw [key]
  clear key
  rw [if_pos hcX] at hlen ⊢
  constructor
  · rcases finishPlace_current s _ _ _ with heq | heq <;> rw [heq]
    · exact h.curOK
    · rw [hcX]
      right
      rfl
  · rw [finishPlace_moves_x, if_pos (by simp [hcX])]
    simp only [List.length_append, List.length_cons, List.length_nil] at hlen ⊢
    omega
  · rw [finishPlace_moves_o, if_pos (by simp [hcX])]
    exact h.lenO
  · rw [finishPlace_moves_x, if_pos (by simp [hcX])]
    exact List.Nodup.append h.ndX (by simp) (by simp [hnm])
  · rw [finishPlace_moves_o, if_pos (by simp [hcX])]
    exact h.ndO
  · intro i j
    rw [finishPlace_board, finishPlace_moves_x, if_pos (by simp [hcX])]
    by_cases hij : i = ⟨x, hx⟩ ∧ j = ⟨y, hy⟩
    · obtain ⟨hi, hj⟩ := hij
      subst hi hj
      rw [setCell_self]
      simp [hcX]
    · rw [setCell_other _ _ _ _ _ _ hij, h.memX i j]
      have hne : ¬ ((i.val, j.val) = (x, y)) := by
        rw [pair_val_eq i j x y hx hy]
        exact hij
      simp [List.mem_append, hne]
  · intro i j
    rw [finishPlace_board, finishPlace_moves_o, if_pos (by simp [hcX])]
    by_cases hij : i = ⟨x, hx⟩ ∧ j = ⟨y, hy⟩
    · obtain ⟨hi, hj⟩ := hij
      subst hi hj
      rw [setCell_self]
      simp [hcX, hnmo]
    · rw [setCell_other _ _ _ _ _ _ hij]
      exact h.memO i j
  · rw [finishPlace_moves_x, if_pos (by simp [hcX])]
    intro c hc
    rcases List.mem_append.mp hc with hc | hc
    · exact h.rngX c hc
    · simp at hc
      subst hc
      exact ⟨hx, hy⟩
  · rw [finishPlace_moves_o, if_pos (by simp [hcX])]
    exact h.rngO

theorem inv_evict_x (s : GameState) (x y : Nat) (hx : x < 3) (hy : y < 3)
    (h : StateInv s) (hw : s.winner = none) (hb : s.board ⟨x, hx⟩ ⟨y, hy⟩ = none)
    (hcX : s.current_player = "X")
    (hlen : 3 < ((if s.current_player = "X" then s.moves_x else s.moves_o) ++ [(x, y)]).length) :
    StateInv (stepP s x y) := by
  rw [if_pos hcX] at hlen
  have hnm : (x, y) ∉ s.moves_x := by
    intro hm
    have := (h.memX ⟨x, hx⟩ ⟨y, hy⟩).mpr hm
    rw [hb] at this
    exact Option.noConfusion this
  have hnmo : (x, y) ∉ s.moves_o := by
    intro hm
    have := (h.memO ⟨x, hx⟩ ⟨y, hy⟩).mpr hm
    rw [hb] at this
    exact Option.noConfusion this
  obtain ⟨⟨ox, oy⟩, rest, hmx⟩ : ∃ a l, s.moves_x = a :: l := by
    cases hmx : s.moves_x with
    | nil =>
      rw [hmx] at hlen
      simp at hlen
    | cons a l => exact ⟨a, l, rfl⟩
  have homem : (ox, oy) ∈ s.moves_x := by
    rw [hmx]
    exact List.mem_cons_self _ _
  obtain ⟨hox, hoy⟩ := h.rngX _ homem
  have hbold : s.board ⟨ox, hox⟩ ⟨oy, hoy⟩ = some "X" :=
    (h.memX ⟨ox, hox⟩ ⟨oy, hoy⟩).mpr homem
  have holdnew : ¬((⟨ox, hox⟩ : Fin 3) = ⟨x, hx⟩ ∧ (⟨oy, hoy⟩ : Fin 3) = ⟨y, hy⟩) := by
    rintro ⟨h1, h2⟩
    rw [h1, h2, hb] at hbold
    exact Option.noConfusion hbold
  have honotrest : (ox, oy) ∉ rest := by
    have := h.ndX
    rw [hmx] at this
    exact (List.nodup_cons.mp this).1
  have hrestnd : rest.Nodup := by
    have := h.ndX
    rw [hmx] at this
    exact (List.nodup_cons.mp this).2
  have hnmrest : (x, y) ∉ rest := by
    intro hm
    exact hnm (by rw [hmx]; exact List.mem_cons_of_mem _ hm)
  have honeqxy : ¬((ox, oy) = (x, y)) := by
    intro he
    exact hnm (he ▸ homem)
  have key : stepP s x y = finishPlace s
      (setCell (setCell s.board ⟨x, hx⟩ ⟨y, hy⟩ (some s.current_player)) ⟨ox, hox⟩ ⟨oy, hoy⟩ none)
      (s.current_player = "X") (rest ++ [(x, y)]) := by
    unfold stepP
    rw [place_piece_evict s x y ox oy rest hx hy hox hoy hw hb
      (by rw [if_pos hcX]; exact hmx) (by rw [hmx] at hlen; exact hlen)]
    rfl
  rw [key]
  clear key
  have hlrest : s.moves_x.length = rest.length + 1 := by
    rw [hmx]
    rfl
  constructor
  · rcases finishPlace_current s _ _ _ with heq | heq <;> rw [heq]
    · exact h.curOK
    · rw [hcX]
      right
      rfl
  · rw [finishPlace_moves_x, if_pos (by simp [hcX])]
    have := h.lenX
    simp only [List.length_append, List.length_cons, List.length_nil]
    omega
  · rw [finishPlace_moves_o, if_pos (by simp [hcX])]
    exact h.lenO
  · rw [finishPlace_moves_x, if_pos (by simp [hcX])]
    exact List.Nodup.append hrestnd (by simp) (by simp [hnmrest])
  · rw [finishPlace_moves_o, if_pos (by simp [hcX])]
    exact h.ndO
  · intro i j
    rw [finishPlace_board, finishPlace_moves_x, if_pos (by simp [hcX])]
    by_cases hijo : i = ⟨ox, hox⟩ ∧ j = ⟨oy, hoy⟩
    · obtain ⟨hi, hj⟩ := hijo
      subst hi hj
      rw [setCell_self]
      simp only [List.mem_append]
      constructor
      · intro hfalse
        exact absurd hfalse (by simp)
      · intro hmem
        rcases hmem with hmem | hmem
        · exact absurd hmem honotrest
        · simp at hmem
          exact (honeqxy (by simp [hmem.1, hmem.2])).elim
    · rw [setCell_other _ _ _ _ _ _ hijo]
      by_cases hijn : i = ⟨x, hx⟩ ∧ j = ⟨y, hy⟩
      · obtain ⟨hi, hj⟩ := hijn
        subst hi hj
        rw [setCell_self]
        simp [hcX]
      · rw [setCell_other _ _ _ _ _ _ hijn, h.memX i j, hmx]
        have hneo : ¬ ((i.val, j.val) = (ox, oy)) := by
          rw [pair_val_eq i j ox oy hox hoy]
          exact hijo
        have hnen : ¬ ((i.val, j.val) = (x, y)) := by
          rw [pair_val_eq i j x y hx hy]
          exact hijn
        simp [List.mem_append, List.mem_cons, hneo, hnen]
  · intro i j
    rw [finishPlace_board, finishPlace_moves_o, if_pos (by simp [hcX])]
    by_cases hijo : i = ⟨ox, hox⟩ ∧ j = ⟨oy, hoy⟩
    · obtain ⟨hi, hj⟩ := hijo
      subst hi hj
      rw [setCell_self]
      have : (ox, oy) ∉ s.moves_o := by
        intro hm
        have := (h.memO ⟨ox, hox⟩ ⟨oy, hoy⟩).mpr hm
        rw [hbold] at this
        simp at this
      simp [this]
    · rw [setCell_other _ _ _ _ _ _ hijo]
      by_cases hijn : i = ⟨x, hx⟩ ∧ j = ⟨y, hy⟩
      · obtain ⟨hi, hj⟩ := hijn
        subst hi hj
        rw [setCell_self]
        simp [hcX, hnmo]
      · rw [setCell_other _ _ _ _ _ _ hijn]
        exact h.memO i j
  · rw [finishPlace_moves_x, if_pos (by simp [hcX])]
    intro c hc
    rcases List.mem_append.mp hc with hc | hc
    · exact h.rngX c (by rw [hmx]; exact List.mem_cons_of_mem _ hc)
    · simp at hc
      subst hc
      exact ⟨hx, hy⟩
  · rw [finishPlace_moves_o, if_pos (by simp [hcX])]
    exact h.rngO

theorem inv_noevict_o (s : GameState) (x y : Nat) (hx : x < 3) (hy : y < 3)
    (h : StateInv s) (hw : s.winner = none) (hb : s.board ⟨x, hx⟩ ⟨y, hy⟩ = none)
    (hcO : s.current_player = "O")
    (hlen : ¬ 3 < ((if s.current_player = "X" then s.moves_x else s.moves_o) ++ [(x, y)]).length) :
    StateInv (stepP s x y) := by
  have hcnX : ¬ (s.current_player = "X") := by simp [hcO]
  have hnm : (x, y) ∉ s.moves_o := by
    intro hm
    have := (h.memO ⟨x, hx⟩ ⟨y, hy⟩).mpr hm
    rw [hb] at this
    exact Option.noConfusion this
  have hnmx : (x, y) ∉ s.moves_x := by
    intro hm
    have := (h.memX ⟨x, hx⟩ ⟨y, hy⟩).mpr hm
    rw [hb] at this
    exact Option.noConfusion this
  have key : stepP s x y = finishPlace s (setCell s.board ⟨x, hx⟩ ⟨y, hy⟩ (some s.current_player))
      (s.current_player = "X") ((if s.current_player = "X" then s.moves_x else s.moves_o) ++ [(x, y)]) := by
    unfold stepP
    rw [place_piece_noevict s x y hx hy hw hb hlen]
    rfl
  rw [key]
  clear key
  rw [if_neg hcnX] at hlen ⊢
  constructor
  · rcases finishPlace_current s _ _ _ with heq | heq <;> rw [heq]
    · exact h.curOK
    · simp [hcO]
  · rw [finishPlace_moves_x, if_neg (by simp [hcO])]
    exact h.lenX
  · rw [finishPlace_moves_o, if_neg (by simp [hcO])]
    simp only [List.length_append, List.length_cons, List.length_nil] at hlen ⊢
    omega
  · rw [finishPlace_moves_x, if_neg (by simp [hcO])]
    exact h.ndX
  · rw [finishPlace_moves_o, if_neg (by simp [hcO])]
    exact List.Nodup.append h.ndO (by simp) (by simp [hnm])
  · intro i j
    rw [finishPlace_board, finishPlace_moves_x, if_neg (by simp [hcO])]
    by_cases hij : i = ⟨x, hx⟩ ∧ j = ⟨y, hy⟩
    · obtain ⟨hi, hj⟩ := hij
      subst hi hj
      rw [setCell_self]
      simp [hcO, hnmx]
    · rw [setCell_other _ _ _ _ _ _ hij]
      exact h.memX i j
  · intro i j
    rw [finishPlace_board, finishPlace_moves_o, if_neg (by simp [hcO])]
    by_cases hij : i = ⟨x, hx⟩ ∧ j = ⟨y, hy⟩
    · obtain ⟨hi, hj⟩ := hij
      subst hi hj
      rw [setCell_self]
      simp [hcO]
    · rw [setCell_other _ _ _ _ _ _ hij, h.memO i j]
      have hne : ¬ ((i.val, j.val) = (x, y)) := by
        rw [pair_val_eq i j x y hx hy]
        exact hij
      simp [List.mem_append, hne]
  · rw [finishPlace_moves_x, if_neg (by simp [hcO])]
    exact h.rngX
  · rw [finishPlace_moves_o, if_neg (by simp [hcO])]
    intro c hc
    rcases List.mem_append.mp hc with hc | hc
    · exact h.rngO c hc
    · simp at hc
      subst hc
      exact ⟨hx, hy⟩

theorem inv_evict_o (s : GameState) (x y : Nat) (hx : x < 3) (hy : y < 3)
    (h : StateInv s) (hw : s.winner = none) (hb : s.board ⟨x, hx⟩ ⟨y, hy⟩ = none)
    (hcO : s.current_player = "O")
    (hlen : 3 < ((if s.current_player = "X" then s.moves_x else s.moves_o) ++ [(x, y)]).length) :
    StateInv (stepP s x y) := by
  have hcnX : ¬ (s.current_player = "X") := by simp [hcO]
  rw [if_neg hcnX] at hlen
  have hnm : (x, y) ∉ s.moves_o := by
    intro hm
    have := (h.memO ⟨x, hx⟩ ⟨y, hy⟩).mpr hm
    rw [hb] at this
    exact Option.noConfusion this
  have hnmx : (x, y) ∉ s.moves_x := by
    intro hm
    have := (h.memX ⟨x, hx⟩ ⟨y, hy⟩).mpr hm
    rw [hb] at this
    exact Option.noConfusion this
  obtain ⟨⟨ox, oy⟩, rest, hmo⟩ : ∃ a l, s.moves_o = a :: l := by
    cases hmo : s.moves_o with
    | nil =>
      rw [hmo] at hlen
      simp at hlen
    | cons a l => exact ⟨a, l, rfl⟩
  have homem : (ox, oy) ∈ s.moves_o := by
    rw [hmo]
    exact List.mem_cons_self _ _
  obtain ⟨hox, hoy⟩ := h.rngO _ homem
  have hbold : s.board ⟨ox, hox⟩ ⟨oy, hoy⟩ = some "O" :=
    (h.memO ⟨ox, hox⟩ ⟨oy, hoy⟩).mpr homem
  have holdnew : ¬((⟨ox, hox⟩ : Fin 3) = ⟨x, hx⟩ ∧ (⟨oy, hoy⟩ : Fin 3) = ⟨y, hy⟩) := by
    rintro ⟨h1, h2⟩
    rw [h1, h2, hb] at hbold
    exact Option.noConfusion hbold
  have honotrest : (ox, oy) ∉ rest := by
    have := h.ndO
    rw [hmo] at this
    exact (List.nodup_cons.mp this).1
  have hrestnd : rest.Nodup := by
    have := h.ndO
    rw [hmo] at this
    exact (List.nodup_cons.mp this).2
  have hnmrest : (x, y) ∉ rest := by
    intro hm
    exact hnm (by rw [hmo]; exact List.mem_cons_of_mem _ hm)
  have honeqxy : ¬((ox, oy) = (x, y)) := by
    intro he
    exact hnm (he ▸ homem)
  have key : stepP s x y = finishPlace s
      (setCell (setCell s.board ⟨x, hx⟩ ⟨y, hy⟩ (some s.current_player)) ⟨ox, hox⟩ ⟨oy, hoy⟩ none)
      (s.current_player = "X") (rest ++ [(x, y)]) := by
    unfold stepP
    rw [place_piece_evict s x y ox oy rest hx hy hox hoy hw hb
      (by rw [if_neg hcnX]; exact hmo) (by rw [hmo] at hlen; exact hlen)]
    rfl
  rw [key]
  clear key
  have hlrest : s.moves_o.length = rest.length + 1 := by
    rw [hmo]
    rfl
  constructor
  · rcases finishPlace_current s _ _ _ with heq | heq <;> rw [heq]
    · exact h.curOK
    · simp [hcO]
  · rw [finishPlace_moves_x, if_neg (by simp [hcO])]
    exact h.lenX
  · rw [finishPlace_moves_o, if_neg (by simp [hcO])]
    have := h.lenO
    simp only [List.length_append, List.length_cons, List.length_nil]
    omega
  · rw [finishPlace_moves_x, if_neg (by simp [hcO])]
    exact h.ndX
  · rw [finishPlace_moves_o, if_neg (by simp [hcO])]
    exact List.Nodup.append hrestnd (by simp) (by simp [hnmrest])
  · intro i j
    rw [finishPlace_board, finishPlace_moves_x, if_neg (by simp [hcO])]
    by_cases hijo : i = ⟨ox, hox⟩ ∧ j = ⟨oy, hoy⟩
    · obtain ⟨hi, hj⟩ := hijo
      subst hi hj
      rw [setCell_self]
      have : (ox, oy) ∉ s.moves_x := by
        intro hm
        have := (h.memX ⟨ox, hox⟩ ⟨oy, hoy⟩).mpr hm
        rw [hbold] at this
        simp at this
      simp [this]
    · rw [setCell_other _ _ _ _ _ _ hijo]
      by_cases hijn : i = ⟨x, hx⟩ ∧ j = ⟨y, hy⟩
      · obtain ⟨hi, hj⟩ := hijn
        subst hi hj
        rw [setCell_self]
        simp [hcO, hnmx]
      · rw [setCell_other _ _ _ _ _ _ hijn]
        exact h.memX i j
  · intro i j
    rw [finishPlace_board, finishPlace_moves_o, if_neg (by simp [hcO])]
    by_cases hijo : i = ⟨ox, hox⟩ ∧ j = ⟨oy, hoy⟩
    · obtain ⟨hi, hj⟩ := hijo
      subst hi hj
      rw [setCell_self]
      simp only [List.mem_append]
      constructor
      · intro hfalse
        exact absurd hfalse (by simp)
      · intro hmem
        rcases hmem with hmem | hmem
        · exact absurd hmem honotrest
        · simp at hmem
          exact (honeqxy (by simp [hmem.1, hmem.2])).elim
    · rw [setCell_other _ _ _ _ _ _ hijo]
      by_cases hijn : i = ⟨x, hx⟩ ∧ j = ⟨y, hy⟩
      · obtain ⟨hi, hj⟩ := hijn
        subst hi hj
        rw [setCell_self]
        simp [hcO]
      · rw [setCell_other _ _ _ _ _ _ hijn, h.memO i j, hmo]
        have hneo : ¬ ((i.val, j.val) = (ox, oy)) := by
          rw [pair_val_eq i j ox oy hox hoy]
          exact hijo
        have hnen : ¬ ((i.val, j.val) = (x, y)) := by
          rw [pair_val_eq i j x y hx hy]
          exact hijn
        simp [List.mem_append, List.mem_cons, hneo, hnen]
  · rw [finishPlace_moves_x, if_neg (by simp [hcO])]
    exact h.rngX
  · rw [finishPlace_moves_o, if_neg (by simp [hcO])]
    intro c hc
    rcases List.mem_append.mp hc with hc | hc
    · exact h.rngO c (by rw [hmo]; exact List.mem_cons_of_mem _ hc)
    · simp at hc
      subst hc
      exact ⟨hx, hy⟩

theorem inv_step (s : GameState) (x y : Nat) (hx : x < 3) (hy : y < 3)
    (h : StateInv s) : StateInv (stepP s x y) := by
  by_cases hw : s.winner = none
  · by_cases hb : s.board ⟨x, hx⟩ ⟨y, hy⟩ = none
    · by_cases hlen : 3 < ((if s.current_player = "X" then s.moves_x else s.moves_o) ++ [(x, y)]).length
      · rcases h.curOK with hc | hc
        · exact inv_evict_x s x y hx hy h hw hb hc hlen
        · exact inv_evict_o s x y hx hy h hw hb hc hlen
      · rcases h.curOK with hc | hc
        · exact inv_noevict_x s x y hx hy h hw hb hc hlen
        · exact inv_noevict_o s x y hx hy h hw hb hc hlen
    · unfold stepP
      rw [place_piece_occupied s x y hx hy hw hb]
      exact h
  · unfold stepP
    rw [place_piece_winner s x y (Option.ne_none_iff_isSome.mp hw)]
    exact h

theorem reachable_inv (s : GameState) (h : Reachable s) : StateInv s := by
  induction h with
  | base ai lvl => exact inv_new ai lvl
  | step s x y hr hx hy ih => exact inv_step s x y hx hy ih
  | rst s hr ih => exact inv_reset s

/-- How many cells of the board the given player occupies. -/
def playerCount (s : GameState) (p : String) : Nat :=
  (allCells.filter fun c => decide (s.board c.1 c.2 = some p)).length

theorem nodup_le_of_subset (l1 l2 : List (Nat × Nat)) (h1 : l1.Nodup) (hs : l1 ⊆ l2) :
    l1.length ≤ l2.length := by
  classical
  calc l1.length = l1.toFinset.card := (List.toFinset_card_of_nodup h1).symm
    _ ≤ l2.toFinset.card := Finset.card_le_card (by
        intro a ha
        rw [List.mem_toFinset] at ha ⊢
        exact hs ha)
    _ ≤ l2.length := l2.toFinset_card_le

theorem cellval_injective : Function.Injective (fun c : Cell => (c.1.val, c.2.val)) := by
  rintro ⟨a, b⟩ ⟨c, d⟩ he
  simp only [Prod.mk.injEq, Fin.val_eq_val] at he
  simp [Prod.ext_iff, he.1, he.2]

theorem allCells_nodup : allCells.Nodup := by decide

theorem playerCount_X_le (s : GameState) (h : StateInv s) : playerCount s "X" ≤ 3 := by
  classical
  have hnd : (allCells.filter fun c => decide (s.board c.1 c.2 = some "X")).Nodup :=
    allCells_nodup.filter _
  have hmapnd : ((allCells.filter fun c => decide (s.board c.1 c.2 = some "X")).map
      fun c : Cell => (c.1.val, c.2.val)).Nodup := hnd.map cellval_injective
  have hsub : ((allCells.filter fun c => decide (s.board c.1 c.2 = some "X")).map
      fun c : Cell => (c.1.val, c.2.val)) ⊆ s.moves_x := by
    intro m hm
    obtain ⟨c, hc, rfl⟩ := List.mem_map.mp hm
    have := (List.mem_filter.mp hc).2
    rw [decide_eq_true_eq] at this
    exact (h.memX c.1 c.2).mp this
  have := nodup_le_of_subset _ _ hmapnd hsub
  rw [List.length_map] at this
  exact le_trans this h.lenX

theorem playerCount_O_le (s : GameState) (h : StateInv s) : playerCount s "O" ≤ 3 := by
  classical
  have hnd : (allCells.filter fun c => decide (s.board c.1 c.2 = some "O")).Nodup :=
    allCells_nodup.filter _
  have hmapnd : ((allCells.filter fun c => decide (s.board c.1 c.2 = some "O")).map
      fun c : Cell => (c.1.val, c.2.val)).Nodup := hnd.map cellval_injective
  have hsub : ((allCells.filter fun c => decide (s.board c.1 c.2 = some "O")).map
      fun c : Cell => (c.1.val, c.2.val)) ⊆ s.moves_o := by
    intro m hm
    obtain ⟨c, hc, rfl⟩ := List.mem_map.mp hm
    have := (List.mem_filter.mp hc).2
    rw [decide_eq_true_eq] at this
    exact (h.memO c.1 c.2).mp this
  have := nodup_le_of_subset _ _ hmapnd hsub
  rw [List.length_map] at this
  exact le_trans this h.lenO

/-! ### Claim C1 — sliding-window eviction -/

/-- C1: Sliding-window eviction. For every reachable state whose current
player already holds three recorded moves `(ox, oy) :: rest`, a
successful `place_piece (x, y)` puts the new piece on the board, removes
the oldest entry `(ox, oy)` of that same player's history (the history
becomes `rest ++ [(x, y)]`), clears exactly the evicted cell, and leaves
every other cell — in particular every cell of the other player, whose
history is untouched — unchanged. -/
theorem c1_sliding_window_eviction (s s' : GameState) (x y ox oy : Nat)
    (rest : List (Nat × Nat)) (hreach : Reachable s) (hx : x < 3) (hy : y < 3)
    (hmoves : (if s.current_player = "X" then s.moves_x else s.moves_o) = (ox, oy) :: rest)
    (hlen3 : ((ox, oy) :: rest).length = 3)
    (hsucc : s.place_piece x y = some (true, s')) :
    ∃ hox : ox < 3, ∃ hoy : oy < 3,
      s'.board ⟨x, hx⟩ ⟨y, hy⟩ = some s.current_player ∧
      s'.board ⟨ox, hox⟩ ⟨oy, hoy⟩ = none ∧
      (if s.current_player = "X" then s'.moves_x else s'.moves_o) = rest ++ [(x, y)] ∧
      (if s.current_player = "X" then s'.moves_o else s'.moves_x) =
        (if s.current_player = "X" then s.moves_o else s.moves_x) ∧
      (∀ i j : Fin 3, ¬(i = ⟨x, hx⟩ ∧ j = ⟨y, hy⟩) → ¬(i = ⟨ox, hox⟩ ∧ j = ⟨oy, hoy⟩) →
        s'.board i j = s.board i j) := by
  have h := reachable_inv s hreach
  have hw : s.winner = none := by
    by_contra hw
    rw [place_piece_winner s x y (Option.ne_none_iff_isSome.mp hw)] at hsucc
    simp at hsucc
  have hb : s.board ⟨x, hx⟩ ⟨y, hy⟩ = none := by
    by_contra hb
    rw [place_piece_occupied s x y hx hy hw hb] at hsucc
    simp at hsucc
  have homem : (ox, oy) ∈ (if s.current_player = "X" then s.moves_x else s.moves_o) := by
    rw [hmoves]
    exact List.mem_cons_self _ _
  have hrng : ox < 3 ∧ oy < 3 := by
    rcases h.curOK with hc | hc
    · rw [if_pos hc] at homem
      exact h.rngX _ homem
    · rw [if_neg (by simp [hc])] at homem
      exact h.rngO _ homem
  obtain ⟨hox, hoy⟩ := hrng
  have hbold : s.board ⟨ox, hox⟩ ⟨oy, hoy⟩ = some s.current_player := by
    rcases h.curOK with hc | hc
    · rw [if_pos hc] at homem
      rw [hc]
      exact (h.memX ⟨ox, hox⟩ ⟨oy, hoy⟩).mpr homem
    · rw [if_neg (by simp [hc])] at homem
      rw [hc]
      exact (h.memO ⟨ox, hox⟩ ⟨oy, hoy⟩).mpr homem
  have holdnew : ¬((⟨ox, hox⟩ : Fin 3) = ⟨x, hx⟩ ∧ (⟨oy, hoy⟩ : Fin 3) = ⟨y, hy⟩) := by
    rintro ⟨h1, h2⟩
    rw [h1, h2, hb] at hbold
    exact Option.noConfusion hbold
  have hlen : 3 < (((ox, oy) :: rest) ++ [(x, y)]).length := by
    simp only [List.length_append, List.length_cons, List.length_nil] at hlen3 ⊢
    omega
  rw [place_piece_evict s x y ox oy rest hx hy hox hoy hw hb hmoves hlen] at hsucc
  have hs' : s' = finishPlace s
      (setCell (setCell s.board ⟨x, hx⟩ ⟨y, hy⟩ (some s.current_player)) ⟨ox, hox⟩ ⟨oy, hoy⟩ none)
      (s.current_player = "X") (rest ++ [(x, y)]) := by
    have := Option.some.inj hsucc
    exact (Prod.ext_iff.mp this).2.symm
  subst hs'
  refine ⟨hox, hoy, ?_, ?_, ?_, ?_, ?_⟩
  · rw [finishPlace_board, setCell_other _ _ _ _ _ _ (by
      rintro ⟨h1, h2⟩
      exact holdnew ⟨h1.symm, h2.symm⟩), setCell_self]
  · rw [finishPlace_board, setCell_self]
  · rcases h.curOK with hc | hc
    · rw [if_pos hc, finishPlace_moves_x, if_pos (by simp [hc])]
    · rw [if_neg (by simp [hc]), finishPlace_moves_o, if_neg (by simp [hc])]
  · rcases h.curOK with hc | hc
    · rw [if_pos hc, finishPlace_moves_o, if_pos (by simp [hc]), if_pos hc]
    · rw [if_neg (by simp [hc]), finishPlace_moves_x, if_neg (by simp [hc]),
        if_neg (show ¬(s.current_player = "X") by simp [hc])]
  · intro i j hijn hijo
    rw [finishPlace_board, setCell_other _ _ _ _ _ _ hijo, setCell_other _ _ _ _ _ _ hijn]

/-- Out-of-range head of the mover's history makes the eviction write
panic (modelled as `none`). Unreachable states only; reachable histories
are always in range. -/
theorem place_piece_evict_oob (s : GameState) (x y ox oy : Nat) (rest : List (Nat × Nat))
    (hx : x < 3) (hy : y < 3)
    (hw : s.winner = none) (hb : s.board ⟨x, hx⟩ ⟨y, hy⟩ = none)
    (hms : (if s.current_player = "X" then s.moves_x else s.moves_o) = (ox, oy) :: rest)
    (hlen : 3 < (((ox, oy) :: rest) ++ [(x, y)]).length)
    (hoob : ¬(ox < 3 ∧ oy < 3)) :
    s.place_piece x y = none := by
  unfold GameState.place_piece
  simp only [hw, Option.isSome_none, Bool.false_eq_true, if_false, hx, dif_pos, hy, hb, if_pos, hms]
  rw [if_pos (by simpa using hlen)]
  by_cases h1 : ox < 3
  · have h2 : ¬ oy < 3 := fun h2 => hoob ⟨h1, h2⟩
    simp [h1, h2]
  · simp [h1]

/-! ### Demonstration game used by the concrete witnesses -/

def demo0 : GameState := GameState.new false none
def demo1 : GameState := stepP demo0 0 0
def demo2 : GameState := stepP demo1 1 0
def demo3 : GameState := stepP demo2 0 1
def demo4 : GameState := stepP demo3 1 2
def demo5 : GameState := stepP demo4 1 1
def demo6 : GameState := stepP demo5 2 2

theorem reachable_demo6 : Reachable demo6 :=
  Reachable.step demo5 2 2
    (Reachable.step demo4 1 1
      (Reachable.step demo3 1 2
        (Reachable.step demo2 0 1
          (Reachable.step demo1 1 0
            (Reachable.step demo0 0 0
              (Reachable.base false none)
              (by omega) (by omega))
            (by omega) (by omega))
          (by omega) (by omega))
        (by omega) (by omega))
      (by omega) (by omega))
    (by omega) (by omega)

/-- Witness for C1: in the demonstration game `"X"` holds
`[(0,0), (0,1), (1,1)]`; placing at `(2,0)` evicts `(0,0)`, clears that
cell, and leaves `"O"`'s pieces untouched. -/
theorem c1_sliding_window_eviction_witness :
    (stepP demo6 2 0).board ⟨2, by omega⟩ ⟨0, by omega⟩ = some "X" ∧
    (stepP demo6 2 0).board ⟨0, by omega⟩ ⟨0, by omega⟩ = none ∧
    (stepP demo6 2 0).moves_x = [(0, 1), (1, 1), (2, 0)] ∧
    (stepP demo6 2 0).moves_o = demo6.moves_o ∧
    (stepP demo6 2 0).board ⟨1, by omega⟩ ⟨0, by omega⟩ = demo6.board ⟨1, by omega⟩ ⟨0, by omega⟩ := by
  obtain ⟨hox, hoy, h1, h2, h3, h4, h5⟩ :=
    c1_sliding_window_eviction demo6 (stepP demo6 2 0) 2 0 0 0 [(0, 1), (1, 1)]
      reachable_demo6 (by omega) (by omega) (by rfl) (by rfl) (by rfl)
  rw [if_pos (show demo6.current_player = "X" from rfl)] at h3 h4
  exact ⟨h1, h2, h3, h4, h5 ⟨1, by omega⟩ ⟨0, by omega⟩ (by simp [Fin.ext_iff]) (by simp [Fin.ext_iff])⟩

/-! ### Claim C2 — state invariant -/

/-- C2: In every reachable state each player's history has length at
most 3 and lists exactly the cells that player occupies on the board,
so each player's occupied-cell count never exceeds 3. -/
theorem c2_history_board_invariant (s : GameState) (h : Reachable s) :
    s.moves_x.length ≤ 3 ∧ s.moves_o.length ≤ 3 ∧
    (∀ i j : Fin 3, (s.board i j = some "X" ↔ (i.val, j.val) ∈ s.moves_x)) ∧
    (∀ i j : Fin 3, (s.board i j = some "O" ↔ (i.val, j.val) ∈ s.moves_o)) ∧
    playerCount s "X" ≤ 3 ∧ playerCount s "O" ≤ 3 := by
  have hi := reachable_inv s h
  exact ⟨hi.lenX, hi.lenO, hi.memX, hi.memO, playerCount_X_le s hi, playerCount_O_le s hi⟩

/-- Witness for C2 at the seventh position of the demonstration game
(after the eviction even): both counts and both history lengths are
within the three-piece cap. -/
theorem c2_history_board_invariant_witness :
    (stepP demo6 2 0).moves_x.length ≤ 3 ∧ playerCount (stepP demo6 2 0) "X" ≤ 3 ∧
      playerCount (stepP demo6 2 0) "O" ≤ 3 := by
  obtain ⟨h1, _, _, _, h5, h6⟩ :=
    c2_history_board_invariant (stepP demo6 2 0)
      (Reachable.step demo6 2 0 reachable_demo6 (by omega) (by omega))
  exact ⟨h1, h5, h6⟩

/-! ### Claim C3 — rejection conditions and atomicity -/

/-- C3: For in-range coordinates `place_piece` rejects (returns `false`)
exactly when the game already has a winner or the target cell is
occupied, and every rejection leaves the state unchanged — in
particular, placing on a cell one already occupies is an ordinary
`CellOccupied` rejection, not a refresh. -/
theorem c3_rejection_atomic (s : GameState) (x y : Nat) (hx : x < 3) (hy : y < 3) :
    (s.place_piece x y = some (false, s) ↔
      (s.winner ≠ none ∨ s.board ⟨x, hx⟩ ⟨y, hy⟩ ≠ none)) ∧
    (∀ r s', s.place_piece x y = some (r, s') → r = false → s' = s) := by
  by_cases hw : s.winner = none
  · by_cases hb : s.board ⟨x, hx⟩ ⟨y, hy⟩ = none
    · have hnofalse : ∀ r s', s.place_piece x y = some (r, s') → r = true := by
        intro r s' hpl
        by_cases hlen : 3 < ((if s.current_player = "X" then s.moves_x else s.moves_o)
            ++ [(x, y)]).length
        · cases hmv : (if s.current_player = "X" then s.moves_x else s.moves_o) with
          | nil =>
            rw [hmv] at hlen
            simp at hlen
          | cons hd tl =>
            obtain ⟨ox, oy⟩ := hd
            rw [hmv] at hlen
            by_cases hoob : ox < 3 ∧ oy < 3
            · rw [place_piece_evict s x y ox oy tl hx hy hoob.1 hoob.2 hw hb hmv hlen] at hpl
              exact (Prod.ext_iff.mp (Option.some.inj hpl)).1.symm
            · rw [place_piece_evict_oob s x y ox oy tl hx hy hw hb hmv hlen hoob] at hpl
              exact Option.noConfusion hpl
        · rw [place_piece_noevict s x y hx hy hw hb hlen] at hpl
          exact (Prod.ext_iff.mp (Option.some.inj hpl)).1.symm
      constructor
      · constructor
        · intro hpl
          have := hnofalse false s hpl
          exact Bool.noConfusion this
        · intro hcond
          rcases hcond with hc | hc
          · exact absurd hw hc
          · exact absurd hb hc
      · intro r s' hpl hr
        rw [hnofalse r s' hpl] at hr
        exact Bool.noConfusion hr
    · have hpl := place_piece_occupied s x y hx hy hw hb
      refine ⟨⟨fun _ => Or.inr hb, fun _ => hpl⟩, ?_⟩
      intro r s' hpl2 hr
      rw [hpl] at hpl2
      exact ((Prod.ext_iff.mp (Option.some.inj hpl2)).2).symm
  · have hpl := place_piece_winner s x y (Option.ne_none_iff_isSome.mp hw)
    refine ⟨⟨fun _ => Or.inl hw, fun _ => hpl⟩, ?_⟩
    intro r s' hpl2 hr
    rw [hpl] at hpl2
    exact ((Prod.ext_iff.mp (Option.some.inj hpl2)).2).symm

/-- The end-to-end scenario of the spec: `(1,1)`, `(0,0)`, `(2,2)` are
played; the fourth request hits `(1,1)` again. -/
def demoB1 : GameState := stepP (GameState.new false none) 1 1
def demoB2 : GameState := stepP demoB1 0 0
def demoB3 : GameState := stepP demoB2 2 2

/-- Witness for C3: the fourth placement at the already-occupied `(1,1)`
is rejected and the state is unchanged. -/
theorem c3_rejection_atomic_witness :
    demoB3.place_piece 1 1 = some (false, demoB3) := by
  exact (c3_rejection_atomic demoB3 1 1 (by omega) (by omega)).1.mpr
    (Or.inr (by rw [show demoB3.board ⟨1, by omega⟩ ⟨1, by omega⟩ = some "X" from rfl]; simp))

/-! ### Claim C10 — in-bounds safety of placement and eviction -/

/-- C10: From any reachable state, `place_piece` with in-range
coordinates performs only in-bounds indexing and returns normally
(never the `none` that models an out-of-bounds panic); in particular the
eviction write targets a cell recorded by an earlier in-range placement. -/
theorem c10_place_piece_inbounds (s : GameState) (h : Reachable s) (x y : Nat)
    (hx : x < 3) (hy : y < 3) : (s.place_piece x y).isSome := by
  have hi := reachable_inv s h
  by_cases hw : s.winner = none
  · by_cases hb : s.board ⟨x, hx⟩ ⟨y, hy⟩ = none
    · by_cases hlen : 3 < ((if s.current_player = "X" then s.moves_x else s.moves_o)
          ++ [(x, y)]).length
      · cases hmv : (if s.current_player = "X" then s.moves_x else s.moves_o) with
        | nil =>
          rw [hmv] at hlen
          simp at hlen
        | cons hd tl =>
          obtain ⟨ox, oy⟩ := hd
          rw [hmv] at hlen
          have homem : (ox, oy) ∈ (if s.current_player = "X" then s.moves_x else s.moves_o) := by
            rw [hmv]
            exact List.mem_cons_self _ _
          have hrng : ox < 3 ∧ oy < 3 := by
            rcases hi.curOK with hc | hc
            · rw [if_pos hc] at homem
              exact hi.rngX _ homem
            · rw [if_neg (by simp [hc])] at homem
              exact hi.rngO _ homem
          rw [place_piece_evict s x y ox oy tl hx hy hrng.1 hrng.2 hw hb hmv hlen]
          rfl
      · rw [place_piece_noevict s x y hx hy hw hb hlen]
        rfl
    · rw [place_piece_occupied s x y hx hy hw hb]
      rfl
  · rw [place_piece_winner s x y (Option.ne_none_iff_isSome.mp hw)]
    rfl

/-- Witness for C10: the eviction-triggering move of the demonstration
game returns normally. -/
theorem c10_place_piece_inbounds_witness : (demo6.place_piece 2 0).isSome :=
  c10_place_piece_inbounds demo6 reachable_demo6 2 0 (by omega) (by omega)

/-! ### Claim C4 — winner detection by fixed-order scan -/

theorem find_first {α : Type} (p : α → Bool) :
    ∀ (l : List α) (k : Nat) (a : α), l.get? k = some a → p a = true →
      (∀ k' a', k' < k → l.get? k' = some a' → p a' = false) →
      l.find? p = some a := by
  intro l
  induction l with
  | nil =>
    intro k a hk hp hearlier
    simp at hk
  | cons x xs ih =>
    intro k a hk hp hearlier
    cases k with
    | zero =>
      simp only [List.get?_cons_zero, Option.some.injEq] at hk
      subst hk
      exact List.find?_cons_of_pos _ hp
    | succ k =>
      have hx : p x = false := hearlier 0 x (Nat.succ_pos k) (by simp)
      rw [List.find?_cons_of_neg _ (by simp [hx])]
      exact ih k a (by simpa using hk) hp
        (fun k' a' hk' hget => hearlier (k' + 1) a' (by omega) (by simpa using hget))

/-- The board `[[X,X,X],[_,O,_],[_,_,O]]` of the spec's §8 example. -/
def c4ExampleState : GameState where
  board := fun i j =>
    if i.val = 0 then some "X"
    else if i.val = 1 ∧ j.val = 1 then some "O"
    else if i.val = 2 ∧ j.val = 2 then some "O"
    else none
  current_player := "O"
  moves_x := [(0, 0), (0, 1), (0, 2)]
  moves_o := [(1, 1), (2, 2)]
  winner := none
  winning_line := none
  is_ai_game := false
  ai_level := none

/-- C4: `check_winner` scans the eight fixed lines in source order
(rows, columns, diagonals); it records occupant and cells of the first
complete line and records nothing when no line is complete; on the board
`[[X,X,X],[_,O,_],[_,_,O]]` the winner is `X` with the top row. -/
theorem c4_check_winner_fixed_scan :
    (∀ s : GameState,
      ((∀ p ∈ winPatterns, lineWins s.board p = false) → s.check_winner = s) ∧
      (∀ k pat, winPatterns.get? k = some pat → lineWins s.board pat = true →
        (∀ k' pat', k' < k → winPatterns.get? k' = some pat' → lineWins s.board pat' = false) →
        s.check_winner =
          { s with winner := s.board pat.1.1 pat.1.2, winning_line := some pat })) ∧
    (c4ExampleState.check_winner.winner = some "X" ∧
      c4ExampleState.check_winner.winning_line = some ((0, 0), (0, 1), (0, 2))) := by
  refine ⟨fun s => ⟨?_, ?_⟩, by constructor <;> rfl⟩
  · intro h
    have hnone : winPatterns.find? (lineWins s.board) = none :=
      List.find?_eq_none.mpr (fun x hx => by rw [h x hx]; simp)
    unfold GameState.check_winner
    rw [hnone]
  · intro k pat hk hp hearlier
    have hfind := find_first (lineWins s.board) winPatterns k pat hk hp hearlier
    unfold GameState.check_winner
    rw [hfind]

/-- Witness for C4: applying the first-match description at index 0 on
the example board yields winner `X` with the top row. -/
theorem c4_check_winner_fixed_scan_witness :
    c4ExampleState.check_winner.winner = some "X" ∧
    c4ExampleState.check_winner.winning_line = some ((0, 0), (0, 1), (0, 2)) := by
  have h := (c4_check_winner_fixed_scan.1 c4ExampleState).2 0 ((0, 0), (0, 1), (0, 2))
    (by rfl) (by rfl)
    (fun k' pat' hk' hget => absurd hk' (Nat.not_lt_zero k'))
  rw [h]
  exact ⟨rfl, rfl⟩

/-! ### The minimax search engine of `src/ai.rs` -/

/-- The four weights `AiPlayer::evaluate_position` reads from its
evaluation table (`i32` values loaded from configuration). -/
structure EvalWeights where
  opponent_three_in_row : Int
  opponent_two_in_row : Int
  self_two_in_row : Int
  self_three_in_row : Int

/-- Count one cell's contribution to `(x_count, o_count)`. -/
def cellXO (v : Option String) : Nat × Nat :=
  if v = some "X" then (1, 0) else if v = some "O" then (0, 1) else (0, 0)

/-- The per-pattern `(x_count, o_count)` of `evaluate_position`. -/
def lineCounts (b : Board) (p : WinLine) : Nat × Nat :=
  ((cellXO (b p.1.1 p.1.2)).1 + (cellXO (b p.2.1.1 p.2.1.2)).1 + (cellXO (b p.2.2.1 p.2.2.2)).1,
   (cellXO (b p.1.1 p.1.2)).2 + (cellXO (b p.2.1.1 p.2.1.2)).2 + (cellXO (b p.2.2.1 p.2.2.2)).2)

/-- The if-chain of `evaluate_position` for one pattern. -/
def lineScore (w : EvalWeights) (xc oc : Nat) : Int :=
  if oc = 3 then w.opponent_three_in_row
  else if oc = 2 ∧ xc = 0 then w.opponent_two_in_row
  else if xc = 2 ∧ oc = 0 then w.self_two_in_row
  else if xc = 3 then w.self_three_in_row
  else 0

/-- `AiPlayer::evaluate_position` — sum the pattern scores over the
eight fixed lines. -/
def evaluate_position (w : EvalWeights) (s : GameState) : Int :=
  winPatterns.foldl
    (fun acc p => acc + lineScore w (lineCounts s.board p).1 (lineCounts s.board p).2) 0

/-- `i32::MIN`, the root and max-loop lower sentinel. -/
def i32Min : Int := -(2 ^ 31)

/-- `i32::MAX`, the min-loop upper sentinel. -/
def i32Max : Int := 2 ^ 31 - 1

/-- The memo key `format!("{:?}-{}", board, is_maximizing)` — the Debug
rendering of the board is injective in its nine cells, so the key is
modelled as those cells paired with the flag. -/
def boardKey (b : Board) : List (List (Option String)) :=
  (List.finRange 3).map fun i => (List.finRange 3).map fun j => b i j

/-- The per-search memo table (`HashMap<String, i32>`). -/
abbrev Memo := List ((List (List (Option String)) × Bool) × Int)

/-- `HashMap::get` on the memo table. -/
def memoGet (m : Memo) (k : List (List (Option String)) × Bool) : Option Int :=
  (m.find? fun e => decide (e.1 = k)).map (·.2)

/-- `HashMap::insert` on the memo table (new binding shadows any old). -/
def memoInsert (m : Memo) (k : List (List (Option String)) × Bool) (v : Int) : Memo :=
  (k, v) :: m

/-- One unfolding of `AiPlayer::minimax`: `recur` is the recursive call
at `depth - 1` and `isZero` tells whether the depth budget is exhausted.
Returns the score together with the state and memo table as left by the
Rust `&mut` arguments. -/
def minimaxStep (w : EvalWeights)
    (recur : GameState → Bool → Memo → Int × GameState × Memo)
    (isZero : Bool) (s : GameState) (isMax : Bool) (memo : Memo) :
    Int × GameState × Memo :=
  let key := (boardKey s.board, isMax)
  match memoGet memo key with
  | some v => (v, s, memo)
  | none =>
    match s.winner with
    | some wn =>
      let sc : Int := if wn = "O" then 1 else if wn = "X" then -1 else 0
      (sc, s, memoInsert memo key sc)
    | none =>
      if s.available_moves.isEmpty then (0, s, memo)
      else if isZero then (evaluate_position w s, s, memo)
      else
        let r := s.available_moves.foldl
          (fun acc c =>
            let s1 := stepP acc.2.1 c.1 c.2
            let rec1 := recur s1 (!isMax) acc.2.2
            let s3 := rec1.2.1.undo_move c.1 c.2
            ((if isMax then max acc.1 rec1.1 else min acc.1 rec1.1), s3, rec1.2.2))
          ((if isMax then i32Min else i32Max), s, memo)
        (r.1, r.2.1, memoInsert r.2.2 key r.1)

/-- `AiPlayer::minimax` (the `is_detailed_eval` flag is dead in the
source and omitted). -/
def minimax (w : EvalWeights) : Nat → GameState → Bool → Memo → Int × GameState × Memo
  | 0 => minimaxStep w (fun s _ m => (0, s, m)) true
  | d + 1 => minimaxStep w (minimax w d) false

/-- `AiPlayer::minimax` with the memo table removed but the recursion,
state threading and sentinels unchanged — the reference the claim about
memoization soundness compares against. -/
def minimaxNMStep (w : EvalWeights)
    (recur : GameState → Bool → Int × GameState)
    (isZero : Bool) (s : GameState) (isMax : Bool) : Int × GameState :=
  match s.winner with
  | some wn =>
    let sc : Int := if wn = "O" then 1 else if wn = "X" then -1 else 0
    (sc, s)
  | none =>
    if s.available_moves.isEmpty then (0, s)
    else if isZero then (evaluate_position w s, s)
    else
      s.available_moves.foldl
        (fun acc c =>
          let s1 := stepP acc.2 c.1 c.2
          let rec1 := recur s1 (!isMax)
          let s3 := rec1.2.undo_move c.1 c.2
          ((if isMax then max acc.1 rec1.1 else min acc.1 rec1.1), s3))
        ((if isMax then i32Min else i32Max), s)

/-- The memo-free variant of `minimax`. -/
def minimaxNM (w : EvalWeights) : Nat → GameState → Bool → Int × GameState
  | 0 => minimaxNMStep w (fun s _ => (0, s)) true
  | d + 1 => minimaxNMStep w (minimaxNM w d) false

/-- The root loop of `AiPlayer::minimax_move`: each candidate is tried
on a clone of the entry state, the memo table is threaded through the
whole loop, and the running best score and best-move list are updated
exactly as in the source (`>` resets the list, `==` appends). -/
def rootLoop (w : EvalWeights) (depth : Nat) (gs : GameState) :
    List (Nat × Nat) → Int → List (Nat × Nat) → Memo → Int × List (Nat × Nat)
  | [], best, bm, _ => (best, bm)
  | c :: rest, best, bm, memo =>
    let r := minimax w depth (stepP gs c.1 c.2) false memo
    if best < r.1 then rootLoop w depth gs rest r.1 [c] r.2.2
    else if r.1 = best then rootLoop w depth gs rest best (bm ++ [c]) r.2.2
    else rootLoop w depth gs rest best bm r.2.2

/-- The `best_moves` list `minimax_move` chooses from. -/
def minimax_move_candidates (w : EvalWeights) (depth : Nat) (gs : GameState) :
    List (Nat × Nat) :=
  (rootLoop w depth gs gs.available_moves i32Min [] []).2

/-- `AiPlayer::minimax_move`; the uniformly random draw of
`best_moves.choose(&mut thread_rng())` is modelled by the index
`t % best_moves.length` for an arbitrary `t`. -/
def minimax_move (w : EvalWeights) (depth : Nat) (gs : GameState) (t : Nat) :
    Option (Nat × Nat) :=
  let c := minimax_move_candidates w depth gs
  c.get? (t % c.length)

/-- A concrete evaluation-table configuration used by the witnesses
(four distinct weights, as loaded from the JSON configuration). -/
def demoWeights : EvalWeights :=
  { opponent_three_in_row := -1009
    opponent_two_in_row := -101
    self_two_in_row := 17
    self_three_in_row := 1013 }

/-! ### Claim C5 — minimax terminal values -/

/-- C5: When the position is not already memoized, `minimax` returns
`+1` when the maximizing player `"O"` has won, `-1` when the minimizing
player `"X"` has won, `0` when there is no winner and no legal move
remains, and the static evaluation when the depth budget is exhausted
on a non-terminal position. -/
theorem c5_minimax_terminal_values (w : EvalWeights) (d : Nat) (s : GameState)
    (isMax : Bool) (memo : Memo)
    (hmiss : memoGet memo (boardKey s.board, isMax) = none) :
    (s.winner = some "O" → (minimax w d s isMax memo).1 = 1) ∧
    (s.winner = some "X" → (minimax w d s isMax memo).1 = -1) ∧
    (s.winner = none → s.available_moves = [] → (minimax w d s isMax memo).1 = 0) ∧
    (s.winner = none → s.available_moves ≠ [] →
      (minimax w 0 s isMax memo).1 = evaluate_position w s) := by
  refine ⟨?_, ?_, ?_, ?_⟩
  · intro hw
    cases d <;> simp [minimax, minimaxStep, hmiss, hw]
  · intro hw
    cases d <;> simp [minimax, minimaxStep, hmiss, hw]
  · intro hw hmv
    cases d <;> simp [minimax, minimaxStep, hmiss, hw, hmv]
  · intro hw hmv
    simp [minimax, minimaxStep, hmiss, hw, List.isEmpty_iff, hmv]

/-- A state whose winner field records `"O"`, for the witness. -/
def c5WinState : GameState :=
  { GameState.new false none with winner := some "O" }

/-- Witness for C5: a won position scores `+1`; on a fresh board with
depth exhausted the static evaluation is returned. -/
theorem c5_minimax_terminal_values_witness :
    (minimax demoWeights 2 c5WinState true []).1 = 1 ∧
    (minimax demoWeights 0 demo0 true []).1 = evaluate_position demoWeights demo0 := by
  constructor
  · exact (c5_minimax_terminal_values demoWeights 2 c5WinState true [] (by rfl)).1 (by rfl)
  · exact (c5_minimax_terminal_values demoWeights 0 demo0 true [] (by rfl)).2.2.2 (by rfl)
      (by decide)

/-! ### Claim C7 — memoization -/

/-- C7 (amended): `minimax` memoizes by the key (serialized board,
maximizing-flag): before expanding a position it returns the stored
value for that key and leaves state and table untouched, and a winner
position is computed once and inserted under its key. (The key omits
the remaining depth and the rest of the mutable state, so the memoized
score is NOT always the score of the memo-free recursion — see the
counterexample.) -/
theorem c7_memoization_lookup_insert (w : EvalWeights) (d : Nat) (s : GameState)
    (isMax : Bool) (memo : Memo) :
    (∀ v, memoGet memo (boardKey s.board, isMax) = some v →
      minimax w d s isMax memo = (v, s, memo)) ∧
    (∀ wn, memoGet memo (boardKey s.board, isMax) = none → s.winner = some wn →
      minimax w d s isMax memo =
        ((if wn = "O" then 1 else if wn = "X" then -1 else 0), s,
          memoInsert memo (boardKey s.board, isMax)
            (if wn = "O" then 1 else if wn = "X" then -1 else 0))) := by
  constructor
  · intro v hv
    cases d <;> simp [minimax, minimaxStep, hv]
  · intro wn hmiss hw
    cases d <;> simp [minimax, minimaxStep, hmiss, hw]

/-- The state of the C7 counterexample: `"O"` to move on
`[[X,_,X],[O,O,O],[X,_,O]]` with no recorded winner and the players'
past moves listed in row-major order. -/
def c7State : GameState where
  board := fun i j =>
    if i.val = 0 then (if j.val = 1 then none else some "X")
    else if i.val = 1 then some "O"
    else if j.val = 0 then some "X"
    else if j.val = 2 then some "O"
    else none
  current_player := "O"
  moves_x := [(0, 0), (0, 2), (2, 0)]
  moves_o := [(1, 0), (1, 1), (1, 2), (2, 2)]
  winner := none
  winning_line := none
  is_ai_game := false
  ai_level := none

/-- Counterexample for C7 as stated: at `c7State` with depth 4 the
memoized search returns a different score (-101) than the same
recursion run with no memo table (0): the memo key carries neither the
remaining depth nor the current player or histories, so a stored score
is reused in a context where the memo-free recursion computes another
value. -/
theorem c7_memoization_counterexample :
    (minimax demoWeights 4 c7State true []).1 ≠ (minimaxNM demoWeights 4 c7State true).1 := by
  set_option maxRecDepth 1000000 in decide

/-- Witness for C7 (amended): a pre-seeded memo entry for the fresh
board is returned as is, and a winner position is inserted. -/
theorem c7_memoization_lookup_insert_witness :
    minimax demoWeights 2 demo0 false [((boardKey demo0.board, false), 77)] =
      (77, demo0, [((boardKey demo0.board, false), 77)]) ∧
    minimax demoWeights 2 c5WinState true [] =
      (1, c5WinState, memoInsert [] (boardKey c5WinState.board, true) 1) := by
  constructor
  · exact (c7_memoization_lookup_insert demoWeights 2 demo0 false
      [((boardKey demo0.board, false), 77)]).1 77 (by rfl)
  · have h := (c7_memoization_lookup_insert demoWeights 2 c5WinState true []).2 "O"
      (by rfl) (by rfl)
    simpa using h

/-! ### The tabular action-value learner of `src/three_solver.rs` -/

/-- The inner `HashMap<(usize, usize), f32>` of the Q table. -/
abbrev QActions := List ((Nat × Nat) × ℚ)

/-- The outer `HashMap<String, HashMap<(usize, usize), f32>>`. -/
abbrev QTable := List (String × QActions)

/-- `HashMap::get` on an inner action map. -/
def qaLookup (l : QActions) (a : Nat × Nat) : Option ℚ :=
  (l.find? fun e => decide (e.1 = a)).map (·.2)

/-- `HashMap::get` on the outer table. -/
def qtLookup (t : QTable) (st : String) : Option QActions :=
  (t.find? fun e => decide (e.1 = st)).map (·.2)

/-- `HashMap::insert` on an inner action map. -/
def qaInsert : QActions → (Nat × Nat) → ℚ → QActions
  | [], a, v => [(a, v)]
  | e :: rest, a, v => if e.1 = a then (a, v) :: rest else e :: qaInsert rest a v

/-- `entry(state).or_insert_with(HashMap::new).insert(action, new_q)`. -/
def qtUpdate : QTable → String → (Nat × Nat) → ℚ → QTable
  | [], st, a, v => [(st, qaInsert [] a v)]
  | e :: rest, st, a, v =>
    if e.1 = st then (st, qaInsert e.2 a v) :: rest else e :: qtUpdate rest st a v

/-- `struct ThreeSolver`; the `f32` fields are modelled as exact
rationals. -/
structure ThreeSolver where
  q_table : QTable
  alpha : ℚ
  gamma : ℚ
  epsilon : ℚ

/-- `f32::MIN`, the fold seed of the `max` over the next state's
values, as an exact rational. -/
def f32Min : ℚ := -(2 ^ 128 - 2 ^ 104)

/-- `ThreeSolver::get_q_value` — stored estimate, `0.0` if unseen. -/
def ThreeSolver.get_q_value (ts : ThreeSolver) (state : String) (action : Nat × Nat) : ℚ :=
  ((qtLookup ts.q_table state).bind fun acts => qaLookup acts action).getD 0

/-- The `max_q_next` computation of `ThreeSolver::update`:
`fold(f32::MIN, f32::max)` over the next state's recorded values,
`0.0` when the next state is absent from the table. -/
def maxQNext (ts : ThreeSolver) (next_state : String) : ℚ :=
  match qtLookup ts.q_table next_state with
  | some acts => (acts.map (·.2)).foldl max f32Min
  | none => 0

/-- `ThreeSolver::update` — the temporal-difference rule. -/
def ThreeSolver.update (ts : ThreeSolver) (state : String) (action : Nat × Nat)
    (reward : ℚ) (next_state : String) : ThreeSolver :=
  let current_q := ts.get_q_value state action
  let new_q := current_q + ts.alpha * (reward + ts.gamma * maxQNext ts next_state - current_q)
  { ts with q_table := qtUpdate ts.q_table state action new_q }

theorem qaLookup_insert (l : QActions) (a : Nat × Nat) (v : ℚ) :
    qaLookup (qaInsert l a v) a = some v := by
  induction l with
  | nil => simp [qaInsert, qaLookup]
  | cons e rest ih =>
    by_cases he : e.1 = a
    · simp [qaInsert, he, qaLookup]
    · simp only [qaInsert, if_neg he]
      simpa [qaLookup, List.find?, he] using ih

theorem qtLookup_update (t : QTable) (st : String) (a : Nat × Nat) (v : ℚ) :
    qtLookup (qtUpdate t st a v) st = some (qaInsert ((qtLookup t st).getD []) a v) := by
  induction t with
  | nil => simp [qtUpdate, qtLookup]
  | cons e rest ih =>
    by_cases he : e.1 = st
    · simp [qtUpdate, he, qtLookup]
    · simp only [qtUpdate, if_neg he]
      simp only [qtLookup, List.find?]
      rw [show (decide (e.1 = st)) = false by simpa using he]
      simpa [qtLookup] using ih

theorem foldl_max_init {α : Type} [LinearOrder α] (l : List α) (b : α) :
    b ≤ l.foldl max b := by
  induction l generalizing b with
  | nil => simp
  | cons x xs ih => exact le_trans (le_max_left b x) (ih (max b x))

theorem foldl_max_mem_le {α : Type} [LinearOrder α] (l : List α) (b : α) :
    ∀ q ∈ l, q ≤ l.foldl max b := by
  induction l generalizing b with
  | nil => simp
  | cons x xs ih =>
    intro q hq
    rcases List.mem_cons.mp hq with h | h
    · subst h
      exact le_trans (le_max_right b q) (foldl_max_init xs (max b q))
    · exact ih (max b x) q h

theorem foldl_max_attained {α : Type} [LinearOrder α] (l : List α) (b : α) :
    l.foldl max b = b ∨ l.foldl max b ∈ l := by
  induction l generalizing b with
  | nil =>
    left
    rfl
  | cons x xs ih =>
    simp only [List.foldl_cons]
    rcases ih (max b x) with h | h
    · rcases max_choice b x with he | he
      · left
        rw [h, he]
      · right
        rw [h, he]
        exact List.mem_cons_self x xs
    · right
      exact List.mem_cons_of_mem x h

theorem get_q_value_update (ts : ThreeSolver) (st : String) (a : Nat × Nat)
    (r : ℚ) (ns : String) :
    (ts.update st a r ns).get_q_value st a =
      ts.get_q_value st a + ts.alpha * (r + ts.gamma * maxQNext ts ns - ts.get_q_value st a) := by
  show ThreeSolver.get_q_value _ st a = _
  simp [ThreeSolver.update, ThreeSolver.get_q_value, qtLookup_update, qaLookup_insert]

/-! ### Claim C8 — temporal-difference update -/

/-- C8: `ThreeSolver::update` stores
`old + alpha * (reward + gamma * maxNext - old)` at `(state, action)`,
where `maxNext` is `0` when the next state is unrecorded and otherwise
the maximum recorded value of the next state; for `alpha` in `(0,1)`
and `old ≠ target` the new value moves strictly toward
`target = reward + gamma * maxNext` and the change has the sign of
`target - old`. -/
theorem c8_td_update (ts : ThreeSolver) (st : String) (a : Nat × Nat) (r : ℚ) (ns : String) :
    ((ts.update st a r ns).get_q_value st a =
      ts.get_q_value st a + ts.alpha * (r + ts.gamma * maxQNext ts ns - ts.get_q_value st a)) ∧
    (qtLookup ts.q_table ns = none → maxQNext ts ns = 0) ∧
    (∀ acts, qtLookup ts.q_table ns = some acts → acts ≠ [] →
      (∀ q ∈ acts.map (·.2), f32Min ≤ q) →
      (maxQNext ts ns ∈ acts.map (·.2) ∧ ∀ q ∈ acts.map (·.2), q ≤ maxQNext ts ns)) ∧
    (0 < ts.alpha → ts.alpha < 1 →
      ts.get_q_value st a ≠ r + ts.gamma * maxQNext ts ns →
      (|(ts.update st a r ns).get_q_value st a - ts.get_q_value st a| <
        |r + ts.gamma * maxQNext ts ns - ts.get_q_value st a| ∧
      (0 < r + ts.gamma * maxQNext ts ns - ts.get_q_value st a →
        0 < (ts.update st a r ns).get_q_value st a - ts.get_q_value st a) ∧
      (r + ts.gamma * maxQNext ts ns - ts.get_q_value st a < 0 →
        (ts.update st a r ns).get_q_value st a - ts.get_q_value st a < 0))) := by
  have hupd := get_q_value_update ts st a r ns
  have hdiff : (ts.update st a r ns).get_q_value st a - ts.get_q_value st a =
      ts.alpha * (r + ts.gamma * maxQNext ts ns - ts.get_q_value st a) := by
    rw [hupd]
    ring
  refine ⟨hupd, ?_, ?_, ?_⟩
  · intro h
    simp [maxQNext, h]
  · intro acts h hne hbound
    have hmax : maxQNext ts ns = (acts.map (·.2)).foldl max f32Min := by
      simp [maxQNext, h]
    constructor
    · rcases foldl_max_attained (acts.map (·.2)) f32Min with hc | hc
      · obtain ⟨e, he⟩ := List.exists_mem_of_ne_nil acts hne
        have hq0 : e.2 ∈ acts.map (·.2) := List.mem_map_of_mem _ he
        have h1 := foldl_max_mem_le (acts.map (·.2)) f32Min e.2 hq0
        have h2 := hbound e.2 hq0
        rw [hc] at h1
        have : e.2 = f32Min := le_antisymm h1 h2
        rw [hmax, hc, ← this]
        exact hq0
      · rw [hmax]
        exact hc
    · intro q hq
      rw [hmax]
      exact foldl_max_mem_le _ _ q hq
  · intro ha0 ha1 hne
    have habs : |r + ts.gamma * maxQNext ts ns - ts.get_q_value st a| > 0 :=
      abs_pos.mpr (sub_ne_zero.mpr (Ne.symm hne))
    refine ⟨?_, ?_, ?_⟩
    · rw [hdiff, abs_mul, abs_of_pos ha0]
      exact mul_lt_of_lt_one_left habs ha1
    · intro hpos
      rw [hdiff]
      exact mul_pos ha0 hpos
    · intro hneg
      rw [hdiff]
      exact mul_neg_of_pos_of_neg ha0 hneg

/-- Witness for C8: from the empty table with `alpha = 1/2`,
`gamma = 9/10`, reward `1`, the estimate moves from `0` to `1/2`,
strictly toward the target `1`. -/
theorem c8_td_update_witness :
    (ThreeSolver.update ⟨[], 1/2, 9/10, 1/5⟩ "s" (0, 0) 1 "n").get_q_value "s" (0, 0) = 1/2 ∧
    |(ThreeSolver.update ⟨[], 1/2, 9/10, 1/5⟩ "s" (0, 0) 1 "n").get_q_value "s" (0, 0) -
      (⟨[], 1/2, 9/10, 1/5⟩ : ThreeSolver).get_q_value "s" (0, 0)| <
    |1 + (9/10 : ℚ) * maxQNext ⟨[], 1/2, 9/10, 1/5⟩ "n" -
      (⟨[], 1/2, 9/10, 1/5⟩ : ThreeSolver).get_q_value "s" (0, 0)| := by
  have h := c8_td_update ⟨[], 1/2, 9/10, 1/5⟩ "s" (0, 0) 1 "n"
  have hold : (⟨[], 1/2, 9/10, 1/5⟩ : ThreeSolver).get_q_value "s" (0, 0) = 0 := by
    simp [ThreeSolver.get_q_value, qtLookup]
  have hmax : maxQNext ⟨[], 1/2, 9/10, 1/5⟩ "n" = 0 := by
    simp [maxQNext, qtLookup]
  constructor
  · rw [h.1, hold, hmax]
    norm_num
  · exact (h.2.2.2 (by norm_num) (by norm_num) (by rw [hold, hmax]; norm_num)).1

/-! ### The Q-learning move of `src/ai.rs` (claim C9) -/

/-- Rust `Iterator::max_by` on the comparison of the two values of `f`:
the running fold keeps the later element whenever the comparison is not
`Less`, so among several maxima the LAST one is returned. -/
def rustMaxBy (f : (Nat × Nat) → ℚ) (l : List (Nat × Nat)) : Option (Nat × Nat) :=
  l.foldl
    (fun acc x =>
      match acc with
      | none => some x
      | some a => if f x < f a then some a else some x)
    none

/-- The key `format!("{}:{:?}", state, a)` of `q_learning_move`, with
the Debug rendering of the `(usize, usize)` pair spelled out. -/
def actionKey (st : String) (a : Nat × Nat) : String :=
  st ++ ":(" ++ toString a.1 ++ ", " ++ toString a.2 ++ ")"

/-- The flat `HashMap<String, f32>` of `struct QLearning`. -/
abbrev QStrTable := List (String × ℚ)

/-- `QLearning::get_q_value` — the stored value or `0.0`; the
`or_insert(0.0)` of the source returns exactly this value and its table
mutation is invisible to every later lookup. -/
def qstrLookup (t : QStrTable) (k : String) : ℚ :=
  ((t.find? fun e => decide (e.1 = k)).map (·.2)).getD 0

/-- `AiPlayer::q_learning_move`: the random draw
`rand::random::<f32>() < epsilon` is the `explore` flag, and the
uniformly random `choose` of the explore branch is modelled by the
index `t % len`; the exploit branch is `max_by` over the legal moves
compared by stored value. -/
def q_learning_move (tbl : QStrTable) (st : String) (s : GameState)
    (explore : Bool) (t : Nat) : Option (Nat × Nat) :=
  if explore then s.available_moves.get? (t % s.available_moves.length)
  else rustMaxBy (fun a => qstrLookup tbl (actionKey st a)) s.available_moves

/-- The selection rule as the claim words it: the FIRST legal move (in
enumeration order) attaining the highest stored value. -/
def specFirstMax (tbl : QStrTable) (st : String) (s : GameState) : Option (Nat × Nat) :=
  s.available_moves.find? fun a =>
    s.available_moves.all fun b =>
      decide (qstrLookup tbl (actionKey st b) ≤ qstrLookup tbl (actionKey st a))

theorem rustMaxBy_fold (f : (Nat × Nat) → ℚ) :
    ∀ (l : List (Nat × Nat)) (a : Nat × Nat),
      ∃ m, l.foldl
          (fun acc x =>
            match acc with
            | none => some x
            | some a => if f x < f a then some a else some x)
          (some a) = some m ∧
        m ∈ a :: l ∧ (∀ b ∈ a :: l, f b ≤ f m) ∧
        ((a :: l).filter fun b => decide (f b = f m)).getLast? = some m := by
  intro l
  induction l with
  | nil =>
    intro a
    refine ⟨a, rfl, List.mem_cons_self a [], ?_, ?_⟩
    · intro b hb
      rcases List.mem_cons.mp hb with h | h
      · rw [h]
      · simp at h
    · simp [List.filter]
  | cons x xs ih =>
    intro a
    by_cases hlt : f x < f a
    · obtain ⟨m, hfold, hmem, hbound, hlast⟩ := ih a
      refine ⟨m, ?_, ?_, ?_, ?_⟩
      · simpa [hlt] using hfold
      · rcases List.mem_cons.mp hmem with h | h
        · exact h ▸ List.mem_cons_self a (x :: xs)
        · exact List.mem_cons_of_mem a (List.mem_cons_of_mem x h)
      · intro b hb
        rcases List.mem_cons.mp hb with h | h
        · exact h ▸ hbound a (List.mem_cons_self a xs)
        · rcases List.mem_cons.mp h with h2 | h2
          · have hax : f a ≤ f m := hbound a (List.mem_cons_self a xs)
            exact h2 ▸ le_trans (le_of_lt hlt) hax
          · exact hbound b (List.mem_cons_of_mem a h2)
      · have hxne : ¬ (f x = f m) := by
          have hax : f a ≤ f m := hbound a (List.mem_cons_self a xs)
          exact ne_of_lt (lt_of_lt_of_le hlt hax)
        calc ((a :: x :: xs).filter fun b => decide (f b = f m)).getLast?
            = ((a :: xs).filter fun b => decide (f b = f m)).getLast? := by
              by_cases hfa : f a = f m <;> simp [List.filter, hfa, hxne]
          _ = some m := hlast
    · obtain ⟨m, hfold, hmem, hbound, hlast⟩ := ih x
      have hxm : f x ≤ f m := hbound x (List.mem_cons_self x xs)
      have ham : f a ≤ f m := le_trans (not_lt.mp hlt) hxm
      refine ⟨m, ?_, ?_, ?_, ?_⟩
      · simpa [hlt] using hfold
      · exact List.mem_cons_of_mem a hmem
      · intro b hb
        rcases List.mem_cons.mp hb with h | h
        · exact h ▸ ham
        · exact hbound b h
      · have hmm : m ∈ ((x :: xs).filter fun b => decide (f b = f m)) :=
          List.mem_filter.mpr ⟨hmem, by simp⟩
        by_cases hfa : f a = f m
        · have : ((a :: x :: xs).filter fun b => decide (f b = f m)) =
              a :: ((x :: xs).filter fun b => decide (f b = f m)) := by
            simp [List.filter, hfa]
          rw [this]
          cases hfl : ((x :: xs).filter fun b => decide (f b = f m)) with
          | nil =>
            rw [hfl] at hmm
            simp at hmm
          | cons y ys =>
            rw [List.getLast?_cons_cons]
            rw [← hfl, hlast]
        · have : ((a :: x :: xs).filter fun b => decide (f b = f m)) =
              ((x :: xs).filter fun b => decide (f b = f m)) := by
            simp [List.filter, hfa]
          rw [this, hlast]

theorem rustMaxBy_spec (f : (Nat × Nat) → ℚ) (l : List (Nat × Nat)) (hne : l ≠ []) :
    ∃ m, rustMaxBy f l = some m ∧ m ∈ l ∧ (∀ b ∈ l, f b ≤ f m) ∧
      (l.filter fun b => decide (f b = f m)).getLast? = some m := by
  cases l with
  | nil => exact absurd rfl hne
  | cons c rest =>
    obtain ⟨m, hfold, hmem, hbound, hlast⟩ := rustMaxBy_fold f rest c
    exact ⟨m, hfold, hmem, hbound, hlast⟩

/-! ### Claim C9 — epsilon-greedy action selection -/

/-- C9 (amended): `q_learning_move` returns a legal move — a uniformly
random legal move on the explore branch (probability = exploration
rate), and otherwise the legal move with the highest stored value with
ties broken by the LAST position in enumeration order (Rust's `max_by`
keeps the later of two equal elements), not the first. -/
theorem c9_selection_last_tiebreak (tbl : QStrTable) (st : String) (s : GameState)
    (hne : s.available_moves ≠ []) :
    (∀ t, ∃ m, q_learning_move tbl st s true t = some m ∧ m ∈ s.available_moves) ∧
    (∃ m, (∀ t, q_learning_move tbl st s false t = some m) ∧ m ∈ s.available_moves ∧
      (∀ b ∈ s.available_moves,
        qstrLookup tbl (actionKey st b) ≤ qstrLookup tbl (actionKey st m)) ∧
      (s.available_moves.filter fun b =>
        decide (qstrLookup tbl (actionKey st b) =
          qstrLookup tbl (actionKey st m))).getLast? = some m) := by
  constructor
  · intro t
    have hpos : 0 < s.available_moves.length := List.length_pos.mpr hne
    have hidx : t % s.available_moves.length < s.available_moves.length :=
      Nat.mod_lt _ hpos
    refine ⟨s.available_moves.get ⟨t % s.available_moves.length, hidx⟩, ?_, ?_⟩
    · simp [q_learning_move, List.get?_eq_get hidx]
    · exact List.get_mem _ _ _
  · obtain ⟨m, hfold, hmem, hbound, hlast⟩ :=
      rustMaxBy_spec (fun a => qstrLookup tbl (actionKey st a)) s.available_moves hne
    exact ⟨m, fun t => by simp [q_learning_move, hfold], hmem, hbound, hlast⟩

/-- Counterexample for C9 as stated: on a fresh board with an empty
table every legal move has stored value `0`; the exploit branch of
`q_learning_move` returns `(2,2)` — the LAST maximal move in
enumeration order — while the claim's first-seen tie-break names
`(0,0)`. -/
theorem c9_first_seen_counterexample :
    q_learning_move [] "S" (GameState.new false none) false 0 = some (2, 2) ∧
    specFirstMax [] "S" (GameState.new false none) = some (0, 0) ∧
    ((2, 2) : Nat × Nat) ≠ (0, 0) := by
  refine ⟨by rfl, by rfl, by decide⟩

/-- Witness for C9 (amended) at the three-empty-cell demonstration
state with the empty table. -/
theorem c9_selection_last_tiebreak_witness :
    (∃ m, q_learning_move [] "S" demo6 true 7 = some m ∧ m ∈ demo6.available_moves) ∧
    (∃ m, (∀ t, q_learning_move [] "S" demo6 false t = some m) ∧
      m ∈ demo6.available_moves) := by
  obtain ⟨h1, m, hm, hmem, hb, hl⟩ := c9_selection_last_tiebreak [] "S" demo6 (by decide)
  exact ⟨h1 7, m, hm, hmem⟩

/-! ### Claim C6 — root move selection -/

/-- The score each root move receives in the loop of `minimax_move`:
the moves are tried in order on clones of the entry state while the
memo table is threaded through. -/
def rootScores (w : EvalWeights) (depth : Nat) (gs : GameState) :
    List (Nat × Nat) → Memo → List ((Nat × Nat) × Int)
  | [], _ => []
  | c :: rest, memo =>
    let r := minimax w depth (stepP gs c.1 c.2) false memo
    (c, r.1) :: rootScores w depth gs rest r.2.2

/-- The best-score/best-move bookkeeping of the root loop, separated
from the score computation. -/
def combine : Int × List (Nat × Nat) → List ((Nat × Nat) × Int) → Int × List (Nat × Nat)
  | acc, [] => acc
  | (best, bm), (m, sc) :: rest =>
    if best < sc then combine (sc, [m]) rest
    else if sc = best then combine (best, bm ++ [m]) rest
    else combine (best, bm) rest

theorem rootLoop_eq_combine (w : EvalWeights) (depth : Nat) (gs : GameState) :
    ∀ (ms : List (Nat × Nat)) (best : Int) (bm : List (Nat × Nat)) (memo : Memo),
      rootLoop w depth gs ms best bm memo = combine (best, bm) (rootScores w depth gs ms memo) := by
  intro ms
  induction ms with
  | nil =>
    intro best bm memo
    rfl
  | cons c rest ih =>
    intro best bm memo
    simp only [rootLoop, rootScores, combine]
    by_cases h1 : best < (minimax w depth (stepP gs c.1 c.2) false memo).1
    · simp [h1, ih]
    · by_cases h2 : (minimax w depth (stepP gs c.1 c.2) false memo).1 = best
      · simp [h1, h2, ih]
      · simp [h1, h2, ih]

theorem pfoldl_max_init (scs : List ((Nat × Nat) × Int)) (b : Int) :
    b ≤ scs.foldl (fun a p => max a p.2) b := by
  induction scs generalizing b with
  | nil => simp
  | cons p rest ih => exact le_trans (le_max_left b p.2) (ih (max b p.2))

theorem pfoldl_max_le (scs : List ((Nat × Nat) × Int)) (b : Int) :
    ∀ p ∈ scs, p.2 ≤ scs.foldl (fun a p => max a p.2) b := by
  induction scs generalizing b with
  | nil => simp
  | cons q rest ih =>
    intro p hp
    rcases List.mem_cons.mp hp with h | h
    · subst h
      exact le_trans (le_max_right b p.2) (pfoldl_max_init rest (max b p.2))
    · exact ih (max b q.2) p h

theorem pfoldl_max_attained (scs : List ((Nat × Nat) × Int)) (b : Int) :
    scs.foldl (fun a p => max a p.2) b = b ∨
      ∃ p ∈ scs, p.2 = scs.foldl (fun a p => max a p.2) b := by
  induction scs generalizing b with
  | nil =>
    left
    rfl
  | cons q rest ih =>
    simp only [List.foldl_cons]
    rcases ih (max b q.2) with h | h
    · rcases max_choice b q.2 with he | he
      · left
        rw [h, he]
      · right
        exact ⟨q, List.mem_cons_self q rest, by rw [h, he]⟩
    · obtain ⟨p, hp, he⟩ := h
      right
      exact ⟨p, List.mem_cons_of_mem q hp, he⟩

theorem combine_fst :
    ∀ (scs : List ((Nat × Nat) × Int)) (b : Int) (bm : List (Nat × Nat)),
      (combine (b, bm) scs).1 = scs.foldl (fun a p => max a p.2) b := by
  intro scs
  induction scs with
  | nil =>
    intro b bm
    rfl
  | cons p rest ih =>
    intro b bm
    obtain ⟨m, sc⟩ := p
    simp only [combine, List.foldl_cons]
    by_cases h1 : b < sc
    · rw [if_pos h1, ih, max_eq_right (le_of_lt h1)]
    · by_cases h2 : sc = b
      · rw [if_neg h1, if_pos h2, ih, h2, max_self]
      · rw [if_neg h1, if_neg h2, ih,
          max_eq_left (le_of_lt (lt_of_le_of_ne (not_lt.mp h1) h2))]

theorem combine_snd :
    ∀ (scs : List ((Nat × Nat) × Int)) (b : Int) (bm : List (Nat × Nat)),
      (combine (b, bm) scs).2 =
        (if scs.foldl (fun a p => max a p.2) b = b then bm else []) ++
          (scs.filter fun p => decide (p.2 = scs.foldl (fun a q => max a q.2) b)).map Prod.fst := by
  intro scs
  induction scs with
  | nil =>
    intro b bm
    simp [combine]
  | cons p rest ih =>
    intro b bm
    obtain ⟨m, sc⟩ := p
    simp only [combine, List.foldl_cons]
    by_cases h1 : b < sc
    · rw [if_pos h1]
      simp only [show max b sc = sc from max_eq_right (le_of_lt h1)]
      rw [ih sc [m]]
      have hRb : rest.foldl (fun a p => max a p.2) sc ≠ b :=
        ne_of_gt (lt_of_lt_of_le h1 (pfoldl_max_init rest sc))
      rw [if_neg hRb, List.filter_cons]
      simp only [decide_eq_true_eq]
      by_cases hsc : sc = rest.foldl (fun a q => max a q.2) sc
      · rw [if_pos (show (rest.foldl (fun a p => max a p.2) sc) = sc from hsc.symm),
          if_pos hsc]
        simp
      · rw [if_neg (fun he => hsc he.symm), if_neg hsc]
    · by_cases h2 : sc = b
      · rw [if_neg h1, if_pos h2]
        simp only [show max b sc = b by rw [h2, max_self]]
        rw [ih b (bm ++ [m]), List.filter_cons]
        simp only [decide_eq_true_eq]
        by_cases hR : rest.foldl (fun a p => max a p.2) b = b
        · rw [if_pos hR, if_pos hR, if_pos (by rw [h2, hR])]
          simp [List.append_assoc]
        · rw [if_neg hR, if_neg hR, if_neg (fun he => hR (he.symm.trans h2))]
      · rw [if_neg h1, if_neg h2]
        simp only [show max b sc = b from
          max_eq_left (le_of_lt (lt_of_le_of_ne (not_lt.mp h1) h2))]
        rw [ih b bm, List.filter_cons]
        simp only [decide_eq_true_eq]
        rw [if_neg (show ¬ sc = rest.foldl (fun a q => max a q.2) b from
          fun he => absurd (he ▸ pfoldl_max_init rest b)
            (not_le.mpr (lt_of_le_of_ne (not_lt.mp h1) h2)))]

theorem rootScores_fst (w : EvalWeights) (depth : Nat) (gs : GameState) :
    ∀ (ms : List (Nat × Nat)) (memo : Memo),
      (rootScores w depth gs ms memo).map Prod.fst = ms := by
  intro ms
  induction ms with
  | nil =>
    intro memo
    rfl
  | cons c rest ih =>
    intro memo
    simp only [rootScores, List.map_cons]
    rw [ih]

theorem candidates_eq_filter (w : EvalWeights) (depth : Nat) (gs : GameState) :
    minimax_move_candidates w depth gs =
      ((rootScores w depth gs gs.available_moves []).filter fun p =>
        decide (p.2 = (rootScores w depth gs gs.available_moves []).foldl
          (fun a q => max a q.2) i32Min)).map Prod.fst := by
  unfold minimax_move_candidates
  rw [rootLoop_eq_combine, combine_snd]
  split <;> rfl

/-- C6: With every root score above the `i32::MIN` sentinel (always
true of genuine `i32` scores), the `best_moves` list of `minimax_move`
is nonempty, contains only legal moves, and is exactly the set of legal
moves whose root score (as computed by the loop with its threaded memo
table) attains the maximum; the returned move is always drawn from that
list, every list element is a possible return value, and the choice is
a function of the state, depth and tie-break draw alone. -/
theorem c6_root_move_selection (w : EvalWeights) (depth : Nat) (gs : GameState)
    (hne : gs.available_moves ≠ [])
    (hsane : ∀ p ∈ rootScores w depth gs gs.available_moves [], i32Min < p.2) :
    (minimax_move_candidates w depth gs ≠ []) ∧
    (∀ m ∈ minimax_move_candidates w depth gs, m ∈ gs.available_moves) ∧
    (∀ m ∈ minimax_move_candidates w depth gs,
      (m, (rootScores w depth gs gs.available_moves []).foldl (fun a q => max a q.2) i32Min)
        ∈ rootScores w depth gs gs.available_moves []) ∧
    (∀ p ∈ rootScores w depth gs gs.available_moves [],
      p.2 ≤ (rootScores w depth gs gs.available_moves []).foldl (fun a q => max a q.2) i32Min) ∧
    (∀ p ∈ rootScores w depth gs gs.available_moves [],
      p.2 = (rootScores w depth gs gs.available_moves []).foldl (fun a q => max a q.2) i32Min →
      p.1 ∈ minimax_move_candidates w depth gs) ∧
    (∀ t, ∃ m, minimax_move w depth gs t = some m ∧
      m ∈ minimax_move_candidates w depth gs) ∧
    (∀ m ∈ minimax_move_candidates w depth gs, ∃ t, minimax_move w depth gs t = some m) := by
  have hfst := rootScores_fst w depth gs gs.available_moves []
  have hcand := candidates_eq_filter w depth gs
  have hscne : rootScores w depth gs gs.available_moves [] ≠ [] := by
    intro h
    rw [h] at hfst
    exact hne hfst.symm
  have hattain : ∃ p ∈ rootScores w depth gs gs.available_moves [],
      p.2 = (rootScores w depth gs gs.available_moves []).foldl (fun a q => max a q.2) i32Min := by
    rcases pfoldl_max_attained (rootScores w depth gs gs.available_moves []) i32Min with h | h
    · obtain ⟨p0, hp0⟩ := List.exists_mem_of_ne_nil _ hscne
      have h1 := pfoldl_max_le (rootScores w depth gs gs.available_moves []) i32Min p0 hp0
      rw [h] at h1
      exact absurd h1 (not_le.mpr (hsane p0 hp0))
    · exact h
  have hnecand : minimax_move_candidates w depth gs ≠ [] := by
    obtain ⟨p, hp, he⟩ := hattain
    rw [hcand]
    exact List.ne_nil_of_mem (List.mem_map_of_mem Prod.fst
      (List.mem_filter.mpr ⟨hp, by simpa using he⟩))
  refine ⟨hnecand, ?_, ?_, ?_, ?_, ?_, ?_⟩
  · intro m hm
    rw [hcand] at hm
    obtain ⟨p, hp, he⟩ := List.mem_map.mp hm
    have := List.mem_map_of_mem Prod.fst (List.mem_filter.mp hp).1
    rw [hfst] at this
    exact he ▸ this
  · intro m hm
    rw [hcand] at hm
    obtain ⟨p, hp, he⟩ := List.mem_map.mp hm
    obtain ⟨hpmem, hpeq⟩ := List.mem_filter.mp hp
    have hp2 : p.2 = (rootScores w depth gs gs.available_moves []).foldl
        (fun a q => max a q.2) i32Min := by simpa using hpeq
    have : p = (m, (rootScores w depth gs gs.available_moves []).foldl
        (fun a q => max a q.2) i32Min) := by
      rw [← he, ← hp2]
    exact this ▸ hpmem
  · exact pfoldl_max_le _ _
  · intro p hp he
    rw [hcand]
    exact List.mem_map_of_mem Prod.fst (List.mem_filter.mpr ⟨hp, by simpa using he⟩)
  · intro t
    have hpos : 0 < (minimax_move_candidates w depth gs).length :=
      List.length_pos.mpr hnecand
    have hidx : t % (minimax_move_candidates w depth gs).length <
        (minimax_move_candidates w depth gs).length := Nat.mod_lt _ hpos
    refine ⟨(minimax_move_candidates w depth gs).get ⟨_, hidx⟩, ?_, List.get_mem _ _ _⟩
    simp [minimax_move, List.get?_eq_get hidx]
  · intro m hm
    obtain ⟨⟨n, hn⟩, hget⟩ := List.mem_iff_get.mp hm
    refine ⟨n, ?_⟩
    have hmod : n % (minimax_move_candidates w depth gs).length = n := Nat.mod_eq_of_lt hn
    have hg : (minimax_move_candidates w depth gs)[n] = m := by
      rw [show (minimax_move_candidates w depth gs)[n] =
        (minimax_move_candidates w depth gs).get ⟨n, hn⟩ from rfl]
      exact hget
    simp [minimax_move, hmod, List.getElem?_eq_getElem hn, hg]

/-- Witness for C6 at the three-empty-cell demonstration state with
depth 3 (the depth `minimax_move` uses below the hard tier). -/
theorem c6_root_move_selection_witness :
    (minimax_move_candidates demoWeights 3 demo6 ≠ []) ∧
    (∀ m ∈ minimax_move_candidates demoWeights 3 demo6, m ∈ demo6.available_moves) ∧
    (∃ m, minimax_move demoWeights 3 demo6 0 = some m) := by
  obtain ⟨h1, h2, _, _, _, h6, _⟩ :=
    c6_root_move_selection demoWeights 3 demo6 (by decide)
      (by set_option maxRecDepth 1000000 in decide)
  obtain ⟨m, hm, _⟩ := h6 0
  exact ⟨h1, h2, m, hm⟩
